import Mathlib

/-!
# A markdown-to-HTML converter, shallowly embedded

This file embeds the markdown parser of the repository (`parseMarkdown` and
its pipeline of rewrite passes) as executable Lean functions over `List Char`,
and proves properties of the embedding corresponding to the specification's
claims about the parser.

Strings are modelled as `List Char` (`Str`).  JavaScript's global
`String.replace` with a regex is modelled by a left-to-right scanner that, at
each position, attempts the regex pattern (with the backtracking behaviour of
the concrete regexes used in the source) and either rewrites the leftmost
match and continues after it, or moves one position to the right.  Scanners
take an explicit fuel argument (always instantiated with at least the length
of the text) so that all definitions are structurally recursive and reduce in
the kernel.  Character classes (`\s`, `\w`, `\d`) are modelled at ASCII
precision, which covers all inputs appearing in this development.
-/

abbrev Str := List Char

/-- Convert a Lean string literal to the `List Char` representation. -/
def str (s : String) : Str := s.data

/-- JavaScript `\s` (whitespace), restricted to ASCII. -/
def isWsChar (c : Char) : Bool :=
  c == ' ' || c == '\t' || c == '\n' || c == '\r' || c == '\x0b' || c == '\x0c'

/-- JavaScript `\d`. -/
def isDigitChar (c : Char) : Bool := '0' ≤ c && c ≤ '9'

/-- JavaScript `\w` = `[A-Za-z0-9_]`. -/
def isWordChar (c : Char) : Bool :=
  ('a' ≤ c && c ≤ 'z') || ('A' ≤ c && c ≤ 'Z') || isDigitChar c || c == '_'

/-- `toLowerCase`, restricted to ASCII letters. -/
def toLowerChar (c : Char) : Char :=
  if 'A' ≤ c && c ≤ 'Z' then Char.ofNat (c.toNat + 32) else c

/-- JavaScript `String.prototype.trim`: drop whitespace from both ends. -/
def trimWs (s : Str) : Str :=
  ((s.dropWhile isWsChar).reverse.dropWhile isWsChar).reverse

/-- `pat` is a prefix of `s`. -/
def isPre : Str → Str → Bool
  | [], _ => true
  | _ :: _, [] => false
  | p :: ps, c :: cs => p == c && isPre ps cs

/-- `pat` occurs somewhere in `s` (JavaScript `String.prototype.includes`). -/
def hasSub (pat : Str) : Str → Bool
  | [] => isPre pat []
  | c :: cs => isPre pat (c :: cs) || hasSub pat cs

/-- Number of (possibly overlapping) occurrences of `pat` in `s`. -/
def countSub (pat : Str) : Str → Nat
  | [] => if isPre pat [] then 1 else 0
  | c :: cs => (if isPre pat (c :: cs) then 1 else 0) + countSub pat cs

/-- Split at the first occurrence of `pat`: text before it and text after it. -/
def splitFirst (pat : Str) : Str → Option (Str × Str)
  | [] => if isPre pat [] then some ([], []) else none
  | c :: cs =>
    if isPre pat (c :: cs) then some ([], (c :: cs).drop pat.length)
    else match splitFirst pat cs with
      | some (a, b) => some (c :: a, b)
      | none => none

/-- Split at the last occurrence of `pat` (greedy `(.*)` before a literal). -/
def lastSplit (pat : Str) : Str → Option (Str × Str)
  | [] => if isPre pat [] then some ([], []) else none
  | c :: cs =>
    match lastSplit pat cs with
    | some (a, b) => some (c :: a, b)
    | none =>
      if isPre pat (c :: cs) then some ([], (c :: cs).drop pat.length) else none

/-- JavaScript `text.split('\n')`. -/
def splitNl : Str → List Str
  | [] => [[]]
  | c :: cs =>
    if c = '\n' then [] :: splitNl cs
    else match splitNl cs with
      | [] => [[c]]
      | l :: ls => (c :: l) :: ls

/-- JavaScript `lines.join('\n')`. -/
def joinNl : List Str → Str
  | [] => []
  | [l] => l
  | l :: ls => l ++ '\n' :: joinNl ls

/-- JavaScript `text.split('\n\n')` (leftmost, non-overlapping). -/
def split2Nl : Str → List Str
  | '\n' :: '\n' :: cs => [] :: split2Nl cs
  | c :: cs =>
    (match split2Nl cs with
     | [] => [[c]]
     | l :: ls => (c :: l) :: ls)
  | [] => [[]]

/-- JavaScript `blocks.join('\n\n')`. -/
def join2Nl : List Str → Str
  | [] => []
  | [l] => l
  | l :: ls => l ++ '\n' :: '\n' :: join2Nl ls

/-- Decimal digit character. -/
def digitCh (n : Nat) : Char := Char.ofNat (48 + n)

/-- Decimal rendering of a natural number (fuelled, structural). -/
def natDigitsF : Nat → Nat → Str
  | 0, _ => []
  | f + 1, n => if n < 10 then [digitCh n] else natDigitsF f (n / 10) ++ [digitCh (n % 10)]

/-- Decimal rendering of a natural number, as JavaScript prints integers. -/
def natDigits (n : Nat) : Str := natDigitsF (n + 1) n

/-- JavaScript `parseInt` on a run of decimal digits. -/
def digitsValAux (acc : Nat) : Str → Nat
  | [] => acc
  | c :: cs => digitsValAux (acc * 10 + (c.toNat - 48)) cs

def digitsVal (s : Str) : Nat := digitsValAux 0 s

/-- `escapeHtml` from the source: escape `&`, `<`, `>`, `"`, `'`. -/
def escapeHtml : Str → Str
  | [] => []
  | c :: cs =>
    (if c = '&' then str "&amp;"
     else if c = '<' then str "&lt;"
     else if c = '>' then str "&gt;"
     else if c = '"' then str "&quot;"
     else if c = '\'' then str "&#39;"
     else [c]) ++ escapeHtml cs

/-!
## Scanner combinators

`scanG tp` models a global regex replace whose pattern can match at any
position: `tp s` returns `some (replacement, rest)` when the pattern matches a
prefix of `s` (consuming at least one character), in which case scanning
continues after the match, and `none` otherwise, in which case one character
is copied.  `scanLinesG tp` models a global multiline (`^`-anchored) replace:
the pattern is only tried at line starts; a match always ends at a line end
(`$`), so after a match the scanner copies up to and including the next
newline before trying again.
-/

def scanG (tp : Str → Option (Str × Str)) : Nat → Str → Str
  | 0, s => s
  | _ + 1, [] => []
  | f + 1, c :: cs =>
    match tp (c :: cs) with
    | some (rep, rem) => rep ++ scanG tp f rem
    | none => c :: scanG tp f cs

/-- Split a string into its first line and (if a newline exists) the rest. -/
def breakNl : Str → Str × Option Str
  | [] => ([], none)
  | c :: cs =>
    if c = '\n' then ([], some cs)
    else
      let (a, r) := breakNl cs
      (c :: a, r)

def scanLinesG (tp : Str → Option (Str × Str)) : Nat → Str → Str
  | 0, s => s
  | f + 1, s =>
    match tp s with
    | some (rep, rem) =>
      rep ++ (match breakNl rem with
        | (pre, none) => pre
        | (pre, some rest) => pre ++ '\n' :: scanLinesG tp f rest)
    | none =>
      match breakNl s with
      | (pre, none) => pre
      | (pre, some rest) => pre ++ '\n' :: scanLinesG tp f rest

/-!
## The rewrite passes

Each `try…` function models one regex pattern matching at the current
position, returning the replacement text and the remainder of the input after
the matched span.
-/

/-- The shared tail `\s+(.+)$` of the four line-anchored patterns, applied
after the pattern head has been consumed.  Greedy `\s+` (which may cross
newlines) backtracks just enough for `(.+)` to match at least one
non-newline character; the match then extends to the end of that line.
Returns the captured content and the remainder of the input. -/
def lastIdxNonNl : Str → Option Nat
  | [] => none
  | c :: cs =>
    match lastIdxNonNl cs with
    | some i => some (i + 1)
    | none => if c = '\n' then none else some 0

def afterHead (r : Str) : Option (Str × Str) :=
  let ws := r.takeWhile isWsChar
  let r2 := r.dropWhile isWsChar
  if ws.isEmpty then none
  else
    match r2 with
    | _ :: _ => some (r2.takeWhile (· ≠ '\n'), r2.dropWhile (· ≠ '\n'))
    | [] =>
      match lastIdxNonNl ws.tail with
      | none => none
      | some i =>
        let t2 := ws.drop (i + 1)
        some (t2.takeWhile (· ≠ '\n'), t2.dropWhile (· ≠ '\n'))

/-- `generateHeaderId` from the source: lowercase, strip characters other
than word characters, whitespace and hyphen, replace whitespace runs by a
single hyphen, then `trim`. -/
def collapseWsH : Bool → Str → Str
  | _, [] => []
  | inRun, c :: cs =>
    if isWsChar c then
      (if inRun then collapseWsH true cs else '-' :: collapseWsH true cs)
    else c :: collapseWsH false cs

def generateHeaderId (text : Str) : Str :=
  trimWs (collapseWsH false
    ((text.map toLowerChar).filter (fun c => isWordChar c || isWsChar c || c == '-')))

/-- Header pattern `^(#{1,6})\s+(.+)$`. -/
def tryHdr (s : Str) : Option (Str × Str) :=
  let hs := s.takeWhile (· = '#')
  let k := hs.length
  if k = 0 || k > 6 then none
  else
    match afterHead (s.drop k) with
    | none => none
    | some (content, rem) =>
      some (str "<h" ++ natDigits k ++ str " id=\"" ++ generateHeaderId content ++
            str "\">" ++ trimWs content ++ str "</h" ++ natDigits k ++ str ">", rem)

/-- Blockquote pattern `^>\s+(.+)$`. -/
def tryQuote : Str → Option (Str × Str)
  | '>' :: r =>
    match afterHead r with
    | none => none
    | some (content, rem) =>
      some (str "<blockquote>" ++ content ++ str "</blockquote>", rem)
  | _ => none

/-- `${level}` where `level = indent.length / 2` is a JavaScript number:
an integer when the indent length is even, otherwise `k.5`. -/
def levelStr (n : Nat) : Str :=
  if n % 2 = 0 then natDigits (n / 2) else natDigits (n / 2) ++ str ".5"

/-- Unordered list item pattern `^(\s*)-\s+(.+)$`. -/
def tryUl (s : Str) : Option (Str × Str) :=
  let ind := s.takeWhile isWsChar
  match s.dropWhile isWsChar with
  | '-' :: r2 =>
    match afterHead r2 with
    | none => none
    | some (content, rem) =>
      some (str "<li data-level=\"" ++ levelStr ind.length ++ str "\">" ++
            content ++ str "</li>", rem)
  | _ => none

/-- Ordered list item pattern `^(\s*)\d+\.\s+(.+)$`. -/
def tryOl (s : Str) : Option (Str × Str) :=
  let ind := s.takeWhile isWsChar
  let r := s.dropWhile isWsChar
  let ds := r.takeWhile isDigitChar
  if ds.isEmpty then none
  else
    match r.drop ds.length with
    | '.' :: r2 =>
      match afterHead r2 with
      | none => none
      | some (content, rem) =>
        some (str "<li data-level=\"" ++ levelStr ind.length ++
              str "\" data-ordered=\"true\">" ++ content ++ str "</li>", rem)
    | _ => none

/-- Fenced code block pattern ```` ```(\w+)?\n([\s\S]*?)\n``` ````. -/
def tryCB1 : Str → Option (Str × Str)
  | '`' :: '`' :: '`' :: r =>
    let lang := r.takeWhile isWordChar
    match r.dropWhile isWordChar with
    | '\n' :: body =>
      match splitFirst (str "\n```") body with
      | some (code, rest) =>
        some (str "<pre><code" ++
              (if lang.isEmpty then [] else str " class=\"language-" ++ lang ++ str "\"") ++
              str ">" ++ escapeHtml (trimWs code) ++ str "</code></pre>", rest)
      | none => none
    | _ => none
  | _ => none

/-- Fenced code block pattern ```` ```\n([\s\S]*?)\n``` ```` (no language). -/
def tryCB2 : Str → Option (Str × Str)
  | '`' :: '`' :: '`' :: '\n' :: body =>
    match splitFirst (str "\n```") body with
    | some (code, rest) =>
      some (str "<pre><code>" ++ escapeHtml (trimWs code) ++ str "</code></pre>", rest)
    | none => none
  | _ => none

/-- Inline code pattern `` `([^`]+)` ``. -/
def tryInline : Str → Option (Str × Str)
  | '`' :: r =>
    let content := r.takeWhile (· ≠ '`')
    if content.isEmpty then none
    else
      match r.drop content.length with
      | '`' :: r3 => some (str "<code>" ++ content ++ str "</code>", r3)
      | _ => none
  | _ => none

/-- Pattern `M M ([^M]+) M M` for a two-character emphasis marker. -/
def tryDouble (m : Char) (opTag clTag : Str) : Str → Option (Str × Str) :=
  fun s =>
    match s with
    | a :: b :: r =>
      if a = m ∧ b = m then
        let content := r.takeWhile (· ≠ m)
        if content.isEmpty then none
        else
          match r.drop content.length with
          | c :: d :: r3 =>
            if c = m ∧ d = m then some (opTag ++ content ++ clTag, r3) else none
          | _ => none
      else none
    | _ => none

/-- Pattern `M ([^M]+) M` for a one-character emphasis marker. -/
def trySingle (m : Char) (opTag clTag : Str) : Str → Option (Str × Str) :=
  fun s =>
    match s with
    | a :: r =>
      if a = m then
        let content := r.takeWhile (· ≠ m)
        if content.isEmpty then none
        else
          match r.drop content.length with
          | c :: r3 => if c = m then some (opTag ++ content ++ clTag, r3) else none
          | _ => none
      else none
    | _ => none

/-- Backtracking for `([^)]+)\s+"([^"]+)"\)` after `[text](`: the greedy url
candidate (a nonempty prefix of the `)`‑free run, longest first) must be
followed by whitespace, a double-quoted nonempty title, and `)`. -/
def titleCheck (r2 : Str) (j : Nat) : Option (Str × Str × Str) :=
  let url := r2.take j
  let rest := r2.drop j
  match rest with
  | c :: _ =>
    if isWsChar c then
      match rest.dropWhile isWsChar with
      | '"' :: r5 =>
        let t := r5.takeWhile (· ≠ '"')
        if t.isEmpty then none
        else
          match r5.drop t.length with
          | '"' :: ')' :: r8 => some (url, t, r8)
          | _ => none
      | _ => none
    else none
  | [] => none

def titleIter (r2 : Str) : Nat → Option (Str × Str × Str)
  | 0 => none
  | j + 1 =>
    match titleCheck r2 (j + 1) with
    | some x => some x
    | none => titleIter r2 j

/-- Link-with-title pattern `\[([^\]]+)\]\(([^)]+)\s+"([^"]+)"\)`. -/
def tryL1 : Str → Option (Str × Str)
  | '[' :: r =>
    let txt := r.takeWhile (· ≠ ']')
    if txt.isEmpty then none
    else
      match r.drop txt.length with
      | ']' :: '(' :: r2 =>
        match titleIter r2 (r2.takeWhile (· ≠ ')')).length with
        | some (url, t, r8) =>
          some (str "<a href=\"" ++ url ++ str "\" title=\"" ++ t ++ str "\">" ++
                txt ++ str "</a>", r8)
        | none => none
      | _ => none
  | _ => none

/-- Plain link pattern `\[([^\]]+)\]\(([^)]+)\)`. -/
def tryL2 : Str → Option (Str × Str)
  | '[' :: r =>
    let txt := r.takeWhile (· ≠ ']')
    if txt.isEmpty then none
    else
      match r.drop txt.length with
      | ']' :: '(' :: r2 =>
        let inner := r2.takeWhile (· ≠ ')')
        if inner.isEmpty then none
        else
          match r2.drop inner.length with
          | ')' :: r4 =>
            some (str "<a href=\"" ++ inner ++ str "\">" ++ txt ++ str "</a>", r4)
          | _ => none
      | _ => none
  | _ => none

/-- Autolink pattern `(https?:\/\/[^\s<]+)`. -/
def tryL3 (s : Str) : Option (Str × Str) :=
  if isPre (str "https://") s then
    let run := (s.drop 8).takeWhile (fun c => !isWsChar c && c ≠ '<')
    if run.isEmpty then none
    else
      let url := str "https://" ++ run
      some (str "<a href=\"" ++ url ++ str "\">" ++ url ++ str "</a>", s.drop (8 + run.length))
  else if isPre (str "http://") s then
    let run := (s.drop 7).takeWhile (fun c => !isWsChar c && c ≠ '<')
    if run.isEmpty then none
    else
      let url := str "http://" ++ run
      some (str "<a href=\"" ++ url ++ str "\">" ++ url ++ str "</a>", s.drop (7 + run.length))
  else none

/-- Image-with-title pattern `!\[([^\]]*)\]\(([^)]+)\s+"([^"]+)"\)`
(the alt text may be empty). -/
def tryI1 : Str → Option (Str × Str)
  | '!' :: '[' :: r =>
    let alt := r.takeWhile (· ≠ ']')
    (match r.drop alt.length with
     | ']' :: '(' :: r2 =>
       match titleIter r2 (r2.takeWhile (· ≠ ')')).length with
       | some (src, t, r8) =>
         some (str "<img src=\"" ++ src ++ str "\" alt=\"" ++ alt ++
               str "\" title=\"" ++ t ++ str "\">", r8)
       | none => none
     | _ => none)
  | _ => none

/-- Plain image pattern `!\[([^\]]*)\]\(([^)]+)\)`. -/
def tryI2 : Str → Option (Str × Str)
  | '!' :: '[' :: r =>
    let alt := r.takeWhile (· ≠ ']')
    (match r.drop alt.length with
     | ']' :: '(' :: r2 =>
       let inner := r2.takeWhile (· ≠ ')')
       if inner.isEmpty then none
       else
         match r2.drop inner.length with
         | ')' :: r4 =>
           some (str "<img src=\"" ++ inner ++ str "\" alt=\"" ++ alt ++ str "\">", r4)
         | _ => none
     | _ => none)
  | _ => none

/-- Line break pattern `  \n` (two spaces before a newline). -/
def tryLB : Str → Option (Str × Str)
  | ' ' :: ' ' :: '\n' :: r => some (str "<br>\n", r)
  | _ => none

/-- Paragraph-break normalisation pattern `\n{2,}` → `\n\n`. -/
def tryNN : Str → Option (Str × Str)
  | '\n' :: '\n' :: r => some (str "\n\n", r.dropWhile (· = '\n'))
  | _ => none

/-!
## The passes, composed as in `parseMarkdown`
-/

/-- `parseCodeBlocks`: the with-language fenced pattern, then the plain one. -/
def parseCodeBlocks (t : Str) : Str :=
  let t1 := scanG tryCB1 (t.length + 1) t
  scanG tryCB2 (t1.length + 1) t1

/-- `parseInlineCode`. -/
def parseInlineCode (t : Str) : Str := scanG tryInline (t.length + 1) t

/-- `parseHeaders`. -/
def parseHeaders (t : Str) : Str := scanLinesG tryHdr (t.length + 1) t

/-- `parseBlockquotes`. -/
def parseBlockquotes (t : Str) : Str := scanLinesG tryQuote (t.length + 1) t

/-!
## List reconstruction (`wrapListItems`)
-/

/-- A frame of the open-list stack: `{ level, isOrdered }`. -/
structure Frame where
  level : Nat
  isOrdered : Bool
deriving DecidableEq, Repr

def openTag (ordered : Bool) : Str := if ordered then str "<ol>" else str "<ul>"

def closeTag (f : Frame) : Str := if f.isOrdered then str "</ol>" else str "</ul>"

def liLine (content : Str) : Str := str "<li>" ++ content ++ str "</li>"

/-- The unanchored search `line.match(/<li data-level="(\d+)"(?: data-ordered="true")?>(.*)<\/li>/)`,
tried at one position.  `(.*)` is greedy, so the content runs to the last
`</li>`.  Only the two used capture groups are returned. -/
def liTryAt (s : Str) : Option (Nat × Str) :=
  if isPre (str "<li data-level=\"") s then
    let r := s.drop 16
    let ds := r.takeWhile isDigitChar
    if ds.isEmpty then none
    else if isPre (str "\" data-ordered=\"true\">") (r.drop ds.length) then
      match lastSplit (str "</li>") ((r.drop ds.length).drop 22) with
      | some (content, _) => some (digitsVal ds, content)
      | none => none
    else if isPre (str "\">") (r.drop ds.length) then
      match lastSplit (str "</li>") ((r.drop ds.length).drop 2) with
      | some (content, _) => some (digitsVal ds, content)
      | none => none
    else none
  else none

/-- Leftmost match of the tagged-`<li>` pattern anywhere in the line. -/
def liMatch : Str → Option (Nat × Str)
  | [] => none
  | c :: cs =>
    match liTryAt (c :: cs) with
    | some x => some x
    | none => liMatch cs

/-- `isOrdered` in the source is `line.includes('data-ordered="true"')`,
checked on the whole line, independently of the match. -/
def lineIsOrdered (line : Str) : Bool := hasSub (str "data-ordered=\"true\"") line

/-- The `while`-loop that closes nested lists: pop and close frames while the
top frame's level is `≥` the current line's level. -/
def popGE (lv : Nat) : List Frame → List Str × List Frame
  | [] => ([], [])
  | f :: rest =>
    if lv ≤ f.level then
      let (cl, st) := popGE lv rest
      (closeTag f :: cl, st)
    else ([], f :: rest)

/-- Close every remaining open frame (innermost to outermost). -/
def closeAll (st : List Frame) : List Str := st.map closeTag

/-- One step of the `wrapListItems` scan on a tagged list line.  The source
also keeps an `inList` boolean; it is `true` exactly when the stack is
nonempty, so the empty-stack case here is the source's `!inList` branch. -/
def wrapStep (st : List Frame) (level : Nat) (ordered : Bool) (content : Str) :
    List Str × List Frame :=
  match st with
  | [] => ([openTag ordered, liLine content], [⟨level, ordered⟩])
  | cur :: _ =>
    if level = cur.level ∧ ordered = cur.isOrdered then
      ([liLine content], st)
    else if cur.level < level then
      ([openTag ordered, liLine content], ⟨level, ordered⟩ :: st)
    else
      let (cl, st') := popGE level st
      match st' with
      | [] => (cl ++ [openTag ordered, liLine content], [⟨level, ordered⟩])
      | _ => (cl ++ [liLine content], st')

/-- The line scan of `wrapListItems`.  A non-list line closes all open lists
and is passed through unchanged; remaining frames are closed at end of
input. -/
def wrapGo : List Str → List Frame → List Str
  | [], st => closeAll st
  | l :: ls, st =>
    match liMatch l with
    | some (lv, content) =>
      let (out, st') := wrapStep st lv (lineIsOrdered l) content
      out ++ wrapGo ls st'
    | none => (closeAll st ++ [l]) ++ wrapGo ls []

/-- `wrapListItems` from the source. -/
def wrapListItems (t : Str) : Str := joinNl (wrapGo (splitNl t) [])

/-- `parseLists`: rewrite unordered then ordered item lines, then wrap. -/
def parseLists (t : Str) : Str :=
  let t1 := scanLinesG tryUl (t.length + 1) t
  let t2 := scanLinesG tryOl (t1.length + 1) t1
  wrapListItems t2

/-- `parseLinks`: links with title, then plain links, then autolinks. -/
def parseLinks (t : Str) : Str :=
  let t1 := scanG tryL1 (t.length + 1) t
  let t2 := scanG tryL2 (t1.length + 1) t1
  scanG tryL3 (t2.length + 1) t2

/-- `parseImages`: images with title, then plain images. -/
def parseImages (t : Str) : Str :=
  let t1 := scanG tryI1 (t.length + 1) t
  scanG tryI2 (t1.length + 1) t1

/-- `parseEmphasis`: bold (`**`, `__`), then italic (`*`, `_`), then
strikethrough (`~~`). -/
def parseEmphasis (t : Str) : Str :=
  let t1 := scanG (tryDouble '*' (str "<strong>") (str "</strong>")) (t.length + 1) t
  let t2 := scanG (tryDouble '_' (str "<strong>") (str "</strong>")) (t1.length + 1) t1
  let t3 := scanG (trySingle '*' (str "<em>") (str "</em>")) (t2.length + 1) t2
  let t4 := scanG (trySingle '_' (str "<em>") (str "</em>")) (t3.length + 1) t3
  scanG (tryDouble '~' (str "<del>") (str "</del>")) (t4.length + 1) t4

/-- `parseLineBreaks`: `  \n` → `<br>\n`, then `\n{2,}` → `\n\n`. -/
def parseLineBreaks (t : Str) : Str :=
  let t1 := scanG tryLB (t.length + 1) t
  scanG tryNN (t1.length + 1) t1

/-- `isBlockElement`: does the text start with one of the block tags? -/
def blockTags : List Str :=
  [str "<h1", str "<h2", str "<h3", str "<h4", str "<h5", str "<h6",
   str "<p>", str "<div", str "<blockquote", str "<pre", str "<ul", str "<ol", str "<li",
   str "<table", str "<form", str "<fieldset", str "<address"]

def isBlockElement (t : Str) : Bool := blockTags.any (fun p => isPre p t)

/-- `parseParagraphs`: split on `\n\n`, trim each block, drop empty blocks,
wrap non-block-level blocks in `<p>…</p>`, rejoin with `\n\n`. -/
def parseParagraphs (t : Str) : Str :=
  join2Nl ((split2Nl t).filterMap (fun b =>
    let b' := trimWs b
    if b'.isEmpty then none
    else if isBlockElement b' then some b'
    else some (str "<p>" ++ b' ++ str "</p>")))

/-- The pass pipeline of `parseMarkdown`, in source order. -/
def pipeline (s : Str) : Str :=
  parseParagraphs (parseLineBreaks (parseEmphasis (parseImages (parseLinks
    (parseLists (parseBlockquotes (parseHeaders (parseInlineCode
      (parseCodeBlocks s)))))))))

/-- A JavaScript value, as far as `parseMarkdown`'s input check observes it. -/
inductive JsValue where
  | nullJ : JsValue
  | undefJ : JsValue
  | boolJ : Bool → JsValue
  | numJ : Int → JsValue
  | strJ : Str → JsValue
deriving DecidableEq

/-- `parseMarkdown`: non-strings and the empty string (both rejected by
`if (!markdown || typeof markdown !== 'string')`) yield `''`; otherwise run
the pipeline and `trim` the result. -/
def parseMarkdown : JsValue → Str
  | .strJ s => if s.isEmpty then [] else trimWs (pipeline s)
  | _ => []

set_option maxRecDepth 1000000

/-!
## Claims settled by concrete evaluation
-/

/-- C1.  The spec claims text inside a fenced code block is never
reinterpreted by any later pass.  The code, however, leaves the emitted
`<pre><code>` text in the working string, and later passes rewrite inside
it: for the fenced block containing `*a* x`, the emphasis pass rewrites
`*a*` to `<em>a</em>` inside the code element, so the `*` characters do
not survive as literal content. -/
theorem c1_fenced_code_reinterpreted :
    parseMarkdown (.strJ (str "```\n*a* x\n```")) =
      str "<pre><code><em>a</em> x</code></pre>" ∧
    hasSub (str "*") (parseMarkdown (.strJ (str "```\n*a* x\n```"))) = false := by
  decide

/-- C2.  The spec claims the image rewrite takes effect before the generic
link rewrite.  In the code `parseLinks` runs before `parseImages`, so for
`![alt](foo.png)` the link pass consumes `[alt](foo.png)` and the output is
a stray `!` followed by an `<a>` anchor, not an `<img>` tag. -/
theorem c2_image_after_link :
    parseMarkdown (.strJ (str "![alt](foo.png)")) =
      str "<p>!<a href=\"foo.png\">alt</a></p>" ∧
    hasSub (str "<img") (parseMarkdown (.strJ (str "![alt](foo.png)"))) = false := by
  decide

/-- C3.  The spec claims the bare-URL autolink rewrite never corrupts the
anchor produced by the earlier `[text](url)` rewrite.  In the code the
autolink regex re-matches the URL inside the freshly emitted
`href="..."` attribute and wraps it in another anchor, corrupting the
output: the claimed output `<a href="http://x">text</a>` does not occur in
the result at all. -/
theorem c3_autolink_corrupts_anchor :
    parseMarkdown (.strJ (str "[text](http://x)")) =
      str "<p><a href=\"<a href=\"http://x\">text\">http://x\">text</a></a></p>" ∧
    hasSub (str "<a href=\"http://x\">text</a>") (parseMarkdown (.strJ (str "[text](http://x)"))) =
      false := by
  decide

/-- C4 (counterexample).  The claim predicts exactly one outer `<ul>`
containing a single nested `<ul>` — two `<ul>` open tags in total.  On the
level `0,1,1,0` input the dedent back to level 0 pops frames while the top
level is `≥ 0`, which closes the outer list as well, and a third `<ul>` is
opened for the final item. -/
theorem c4_nesting_cx :
    ¬ countSub (str "<ul>") (parseMarkdown (.strJ (str "- a\n  - b\n  - c\n- d"))) = 2 := by
  decide

/-- C4 (amended).  For the unordered level `0,1,1,0` input the output is an
outer `<ul>` holding the first item and a nested `<ul>` with the two
level-1 items, followed by a second, adjacent top-level `<ul>` holding the
final item; `<ul>` open and close tags still balance (three of each). -/
theorem c4_nesting_amended :
    parseMarkdown (.strJ (str "- a\n  - b\n  - c\n- d")) =
      str "<ul>\n<li>a</li>\n<ul>\n<li>b</li>\n<li>c</li>\n</ul>\n</ul>\n<ul>\n<li>d</li>\n</ul>" ∧
    countSub (str "<ul>") (parseMarkdown (.strJ (str "- a\n  - b\n  - c\n- d"))) =
      countSub (str "</ul>") (parseMarkdown (.strJ (str "- a\n  - b\n  - c\n- d"))) := by
  decide

/-- C6 (counterexample).  The claim says that for *every* pair of
consecutive same-level list lines with differing marker styles a new list
of the other kind is opened.  At nesting depth 1 this fails: after popping
the level-1 `<ul>`, the level-0 frame is still open, so the ordered item is
emitted straight into the outer `<ul>` and no `<ol>` is ever opened. -/
theorem c6_marker_switch_cx :
    parseMarkdown (.strJ (str "- a\n  - b\n  1. c")) =
      str "<ul>\n<li>a</li>\n<ul>\n<li>b</li>\n</ul>\n<li>c</li>\n</ul>" ∧
    hasSub (str "<ol>") (parseMarkdown (.strJ (str "- a\n  - b\n  1. c"))) = false := by
  decide

/-- C10.  For a same-kind list-line sequence at levels `0,2,1` the pass
closes only the level-2 list (popping frames with level `≥ 1`); since the
level-0 frame is still open, the level-1 item is emitted as a direct
sibling `<li>` inside the open level-0 list, with no new list tag. -/
theorem c10_dedent_intermediate :
    parseMarkdown (.strJ (str "- a\n    - b\n  - c")) =
      str "<ul>\n<li>a</li>\n<ul>\n<li>b</li>\n</ul>\n<li>c</li>\n</ul>" := by
  decide

/-- C7 (counterexample).  The claim says leading/trailing hyphens are
trimmed from the slug, so `# -a-` should get id `a`.  The code's `trim`
runs after all whitespace has already been replaced by hyphens, so it never
removes anything and the hyphens survive: the id is `-a-`. -/
theorem c7_slug_cx :
    parseHeaders (str "# -a-") = str "<h1 id=\"-a-\">-a-</h1>" ∧
    str "<h1 id=\"-a-\">-a-</h1>" ≠ str "<h1 id=\"a\">-a-</h1>" := by
  decide

/-!
## Helper lemmas about the basic string operations
-/

theorem dropWhile_dropWhile (p : Char → Bool) (l : Str) :
    (l.dropWhile p).dropWhile p = l.dropWhile p := by
  induction l with
  | nil => rfl
  | cons c cs ih =>
    by_cases h : p c
    · simp [List.dropWhile, h, ih]
    · simp [List.dropWhile, h]

theorem length_dropWhile_le (p : Char → Bool) (l : Str) :
    (l.dropWhile p).length ≤ l.length := by
  induction l with
  | nil => simp
  | cons c cs ih =>
    by_cases h : p c
    · simp [List.dropWhile, h]; omega
    · simp [List.dropWhile, h]

theorem dropWhile_append_of_self {p : Char → Bool} :
    ∀ {a b : Str}, (a ++ b).dropWhile p = a ++ b → a.dropWhile p = a := by
  intro a b h
  cases a with
  | nil => rfl
  | cons c cs =>
    have hc : p c = false := by
      by_contra hpc
      have hpc' : p c = true := by
        cases hp : p c
        · exact absurd hp hpc
        · rfl
      have hlen : ((c :: cs ++ b).dropWhile p).length ≤ (cs ++ b).length := by
        simp only [List.cons_append, List.dropWhile, hpc']
        exact length_dropWhile_le _ _
      rw [h] at hlen
      simp at hlen
    simp [List.dropWhile, hc]

theorem trimWs_no_lead (l : Str) : (trimWs l).dropWhile isWsChar = trimWs l := by
  unfold trimWs
  set A := l.dropWhile isWsChar with hA
  have hdwA : A.dropWhile isWsChar = A := by rw [hA]; exact dropWhile_dropWhile _ _
  have hsplit : A = (A.reverse.dropWhile isWsChar).reverse ++ (A.reverse.takeWhile isWsChar).reverse := by
    conv_lhs => rw [← List.reverse_reverse A, ← List.takeWhile_append_dropWhile (p := isWsChar) (l := A.reverse)]
    rw [List.reverse_append]
  exact dropWhile_append_of_self (hsplit ▸ hdwA)

theorem trimWs_idem (l : Str) : trimWs (trimWs l) = trimWs l := by
  have h1 : (trimWs l).dropWhile isWsChar = trimWs l := trimWs_no_lead l
  show ((((trimWs l).dropWhile isWsChar).reverse.dropWhile isWsChar)).reverse = trimWs l
  rw [h1]
  unfold trimWs
  rw [List.reverse_reverse, dropWhile_dropWhile, ← trimWs]

theorem dropWhile_eq_self_of_all {p : Char → Bool} {l : Str}
    (h : ∀ c ∈ l, p c = false) : l.dropWhile p = l := by
  cases l with
  | nil => rfl
  | cons c cs => simp [List.dropWhile, h c (List.mem_cons_self c cs)]

theorem trimWs_eq_self_of_no_ws {l : Str} (h : ∀ c ∈ l, isWsChar c = false) :
    trimWs l = l := by
  unfold trimWs
  rw [dropWhile_eq_self_of_all h, dropWhile_eq_self_of_all (by intro c hc; simp at hc; exact h c hc),
    List.reverse_reverse]

theorem takeWhile_eq_self_of_all {p : Char → Bool} {l : Str}
    (h : ∀ c ∈ l, p c = true) : l.takeWhile p = l := by
  induction l with
  | nil => rfl
  | cons c cs ih =>
    have hc : p c = true := h c (List.mem_cons_self c cs)
    have ih' := ih (fun d hd => h d (List.mem_cons_of_mem c hd))
    simp [List.takeWhile, hc, ih']

/-!
## C6 (amended) and C8
-/

/-- C6 (amended).  Switching marker style at equal indentation closes the
open list; a new adjacent list of the other kind is opened exactly when no
enclosing frame remains open after popping: with a single open frame at the
item's own level, `wrapStep` closes it, opens the other kind and emits the
item.  At the top level this gives the claimed behaviour, proved on
`- a` followed by `1. b`. -/
theorem c6_marker_switch_amended :
    (∀ (lv : Nat) (b : Bool) (c : Str) (fr : Frame), fr.level = lv → fr.isOrdered = !b →
      wrapStep [fr] lv b c = ([closeTag fr, openTag b, liLine c], [⟨lv, b⟩])) ∧
    parseMarkdown (.strJ (str "- a\n1. b")) =
      str "<ul>\n<li>a</li>\n</ul>\n<ol>\n<li>b</li>\n</ol>" := by
  constructor
  · intro lv b c fr h1 h2
    have hb : ¬ b = fr.isOrdered := by rw [h2]; cases b <;> simp
    have hlt : ¬ fr.level < lv := by omega
    simp [wrapStep, h1, hb, hlt, popGE]
  · decide

/-- C6 witness: the amended step property at the concrete frame
`{level := 0, isOrdered := false}` and an ordered level-0 item. -/
theorem c6_marker_switch_amended_witness :
    wrapStep [⟨0, false⟩] 0 true (str "b") =
      ([closeTag ⟨0, false⟩, openTag true, liLine (str "b")], [⟨0, true⟩]) :=
  c6_marker_switch_amended.1 0 true (str "b") ⟨0, false⟩ rfl rfl

/-- C8.  Invalid top-level input (null, undefined, non-string, the empty
string) yields the empty string, and for every string input the result has
no leading or trailing whitespace (it is a fixed point of `trim`). -/
theorem c8_invalid_input_and_trimmed :
    (parseMarkdown .nullJ = [] ∧ parseMarkdown .undefJ = [] ∧
     (∀ b, parseMarkdown (.boolJ b) = []) ∧ (∀ n, parseMarkdown (.numJ n) = []) ∧
     parseMarkdown (.strJ []) = []) ∧
    ∀ s, trimWs (parseMarkdown (.strJ s)) = parseMarkdown (.strJ s) := by
  refine ⟨⟨rfl, rfl, fun _ => rfl, fun _ => rfl, rfl⟩, ?_⟩
  intro s
  cases s with
  | nil => rfl
  | cons c cs =>
    show trimWs (trimWs (pipeline (c :: cs))) = trimWs (pipeline (c :: cs))
    exact trimWs_idem _

/-!
## C7 (amended)
-/

/-- The slug as described by the amended claim: lowercase the content,
remove characters other than word characters, whitespace and hyphens, and
collapse whitespace runs to single hyphens.  (No hyphen trimming: the
code's final `trim` only removes whitespace, of which none remains.) -/
def headerSlugSpec (text : Str) : Str :=
  collapseWsH false
    ((text.map toLowerChar).filter (fun c => isWordChar c || isWsChar c || c == '-'))

theorem collapseWsH_no_ws : ∀ (b : Bool) (u : Str), ∀ c ∈ collapseWsH b u, isWsChar c = false := by
  intro b u
  induction u generalizing b with
  | nil => intro c hc; simp [collapseWsH] at hc
  | cons d ds ih =>
    intro c hc
    by_cases hd : isWsChar d
    · cases b with
      | true =>
        simp [collapseWsH, hd] at hc
        exact ih true c hc
      | false =>
        simp [collapseWsH, hd] at hc
        rcases hc with h | h
        · subst h; decide
        · exact ih true c h
    · simp [collapseWsH, hd] at hc
      rcases hc with h | h
      · subst h; simpa using hd
      · exact ih false c h

theorem generateHeaderId_eq_spec (text : Str) : generateHeaderId text = headerSlugSpec text :=
  trimWs_eq_self_of_no_ws (collapseWsH_no_ws false _)

theorem takeWhile_hash_replicate (k : Nat) (rest : Str) :
    (List.replicate k '#' ++ ' ' :: rest).takeWhile (· = '#') = List.replicate k '#' := by
  induction k with
  | zero => simp [List.takeWhile]
  | succ n ih => simp [List.replicate, List.takeWhile, ih]

theorem dropWhile_hash_replicate (k : Nat) (rest : Str) :
    (List.replicate k '#' ++ ' ' :: rest).dropWhile (· = '#') = ' ' :: rest := by
  induction k with
  | zero => simp [List.dropWhile]
  | succ n ih => simp [List.replicate, List.dropWhile, ih]

theorem takeWhile_ne_of_not_mem {l : Str} (h : '\n' ∉ l) : l.takeWhile (· ≠ '\n') = l := by
  apply takeWhile_eq_self_of_all
  intro c hc
  simp
  intro he
  exact h (he ▸ hc)

theorem dropWhile_ne_of_not_mem {l : Str} (h : '\n' ∉ l) : l.dropWhile (· ≠ '\n') = [] := by
  rw [List.dropWhile_eq_nil_iff]
  intro c hc
  simp
  intro he
  exact h (he ▸ hc)

/-- C7 (amended).  For every single-line heading (1–6 hashes, a space, then
content starting with a non-whitespace character) the output is
`<hN id="slug">trimmed content</hN>`, where the slug is the content
lowercased, stripped of characters other than word characters, whitespace
and hyphens, with whitespace runs collapsed to single hyphens — and with no
trimming of leading or trailing hyphens: the code's `generateHeaderId`
coincides with this hyphen-keeping slug on every input. -/
theorem c7_header_amended :
    (∀ (k : Nat) (c : Char) (cs : Str), 1 ≤ k → k ≤ 6 → isWsChar c = false →
      '\n' ∉ (c :: cs) →
      parseHeaders (List.replicate k '#' ++ ' ' :: c :: cs) =
        str "<h" ++ natDigits k ++ str " id=\"" ++ headerSlugSpec (c :: cs) ++
        str "\">" ++ trimWs (c :: cs) ++ str "</h" ++ natDigits k ++ str ">") ∧
    ∀ text, generateHeaderId text = headerSlugSpec text := by
  constructor
  · intro k c cs h1 h6 hws hnl
    have hk0 : ¬ k = 0 := by omega
    have hk6 : ¬ k > 6 := by omega
    obtain ⟨f, hf⟩ : ∃ f, (List.replicate k '#' ++ ' ' :: c :: cs).length + 1 = f + 1 :=
      ⟨_, rfl⟩
    have htry : tryHdr (List.replicate k '#' ++ ' ' :: c :: cs) =
        some (str "<h" ++ natDigits k ++ str " id=\"" ++ generateHeaderId (c :: cs) ++
              str "\">" ++ trimWs (c :: cs) ++ str "</h" ++ natDigits k ++ str ">", []) := by
      unfold tryHdr
      rw [takeWhile_hash_replicate]
      have hdropk : (List.replicate k '#' ++ ' ' :: c :: cs).drop k = ' ' :: c :: cs :=
        List.drop_left' (by simp)
      simp only [List.length_replicate]
      rw [if_neg (by simp [hk0, hk6]), hdropk]
      unfold afterHead
      have htw : (' ' :: c :: cs).takeWhile isWsChar = [' '] := by
        rw [List.takeWhile_cons_of_pos (by decide), List.takeWhile_cons_of_neg (by simp [hws])]
      have hdw : (' ' :: c :: cs).dropWhile isWsChar = c :: cs := by
        rw [List.dropWhile_cons_of_pos (by decide), List.dropWhile_cons_of_neg (by simp [hws])]
      rw [htw, hdw]
      simp only [List.isEmpty_cons, Bool.false_eq_true, if_false]
      rw [takeWhile_ne_of_not_mem hnl, dropWhile_ne_of_not_mem hnl]
    rw [parseHeaders, hf, scanLinesG, htry]
    simp [breakNl, generateHeaderId_eq_spec]
  · exact generateHeaderId_eq_spec

/-- C7 witness: the amended statement at the spec's own example,
`## Hello, World!`, which yields `<h2 id="hello-world">Hello, World!</h2>`. -/
theorem c7_header_amended_witness :
    parseHeaders (str "## Hello, World!") = str "<h2 id=\"hello-world\">Hello, World!</h2>" := by
  have h := c7_header_amended.1 2 'H' (str "ello, World!")
    (by decide) (by decide) (by decide) (by decide)
  have e1 : List.replicate 2 '#' ++ ' ' :: 'H' :: str "ello, World!" = str "## Hello, World!" := by
    decide
  rw [e1] at h
  exact h.trans (by decide)

/-!
## C5: the list pass closes every list it opens

The pass emits `<ul>`/`<ol>`/`</ul>`/`</ol>` tags as standalone output
lines; non-list input lines are passed through unchanged.  Balance is
stated on whole output lines, discounting any input lines that happen to
equal a tag and are merely passed through.
-/

def ucount (st : List Frame) : Nat := st.countP (fun f => !f.isOrdered)

def ocount (st : List Frame) : Nat := st.countP (fun f => f.isOrdered)

theorem closeTag_ne_open (f : Frame) :
    closeTag f ≠ str "<ul>" ∧ closeTag f ≠ str "<ol>" := by
  cases f with
  | mk lv b => cases b <;> simp [closeTag, str]

theorem closeAll_count_ul (st : List Frame) : (closeAll st).count (str "<ul>") = 0 := by
  induction st with
  | nil => rfl
  | cons f fs ih =>
    simp [closeAll] at ih ⊢
    rw [List.count_cons]
    simp [ih, (closeTag_ne_open f).1]

theorem closeAll_count_ol (st : List Frame) : (closeAll st).count (str "<ol>") = 0 := by
  induction st with
  | nil => rfl
  | cons f fs ih =>
    simp [closeAll] at ih ⊢
    rw [List.count_cons]
    simp [ih, (closeTag_ne_open f).2]

theorem closeAll_count_cul (st : List Frame) : (closeAll st).count (str "</ul>") = ucount st := by
  induction st with
  | nil => rfl
  | cons f fs ih =>
    cases f with
    | mk lv b =>
      cases b <;>
        simp [closeAll, ucount, closeTag, str, List.count_cons, List.countP_cons] at ih ⊢ <;>
        omega

theorem closeAll_count_col (st : List Frame) : (closeAll st).count (str "</ol>") = ocount st := by
  induction st with
  | nil => rfl
  | cons f fs ih =>
    cases f with
    | mk lv b =>
      cases b <;>
        simp [closeAll, ocount, closeTag, str, List.count_cons, List.countP_cons] at ih ⊢ <;>
        omega

/-- The closing tags emitted by `popGE`, counted per kind, account exactly
for the frames it pops. -/
theorem popGE_balance (lv : Nat) (st : List Frame) :
    (popGE lv st).1.count (str "</ul>") + ucount (popGE lv st).2 = ucount st ∧
    (popGE lv st).1.count (str "</ol>") + ocount (popGE lv st).2 = ocount st ∧
    (popGE lv st).1.count (str "<ul>") = 0 ∧
    (popGE lv st).1.count (str "<ol>") = 0 := by
  induction st with
  | nil => simp [popGE, ucount, ocount]
  | cons f fs ih =>
    obtain ⟨l, b⟩ := f
    by_cases h : lv ≤ l
    · obtain ⟨ih1, ih2, ih3, ih4⟩ := ih
      cases b <;>
        simp [popGE, h, ucount, ocount, closeTag, str,
          List.count_cons, List.countP_cons] at ih1 ih2 ih3 ih4 ⊢ <;>
        refine ⟨?_, ?_, ?_, ?_⟩ <;> omega
    · simp [popGE, h, ucount, ocount]

theorem ucount_nil : ucount [] = 0 := rfl

theorem ocount_nil : ocount [] = 0 := rfl

theorem ucount_cons (f : Frame) (st : List Frame) :
    ucount (f :: st) = (if f.isOrdered then 0 else 1) + ucount st := by
  cases hb : f.isOrdered <;> simp [ucount, List.countP_cons, hb] <;> omega

theorem ocount_cons (f : Frame) (st : List Frame) :
    ocount (f :: st) = (if f.isOrdered then 1 else 0) + ocount st := by
  cases hb : f.isOrdered <;> simp [ocount, List.countP_cons, hb] <;> omega

theorem liLine_ne_tags (c : Str) :
    liLine c ≠ ['<', 'u', 'l', '>'] ∧ liLine c ≠ ['<', '/', 'u', 'l', '>'] ∧
    liLine c ≠ ['<', 'o', 'l', '>'] ∧ liLine c ≠ ['<', '/', 'o', 'l', '>'] := by
  have h1 : str "<li>" = ['<', 'l', 'i', '>'] := rfl
  refine ⟨?_, ?_, ?_, ?_⟩ <;> intro h <;>
    simp [liLine, h1] at h

theorem wrapStep_balance (st : List Frame) (lv : Nat) (b : Bool) (c : Str) :
    (wrapStep st lv b c).1.count (str "<ul>") + ucount st =
      (wrapStep st lv b c).1.count (str "</ul>") + ucount (wrapStep st lv b c).2 ∧
    (wrapStep st lv b c).1.count (str "<ol>") + ocount st =
      (wrapStep st lv b c).1.count (str "</ol>") + ocount (wrapStep st lv b c).2 := by
  obtain ⟨hl1, hl2, hl3, hl4⟩ := liLine_ne_tags c
  cases st with
  | nil =>
    cases b <;>
      simp [wrapStep, ucount_cons, ucount_nil, ocount_cons, ocount_nil, openTag,
        List.count_cons, str,
        hl1, hl2, hl3, hl4, Ne.symm hl1, Ne.symm hl2, Ne.symm hl3, Ne.symm hl4]
  | cons cur rest =>
    simp only [wrapStep]
    split_ifs with he hg
    · simp [str, List.count_cons,
        hl1, hl2, hl3, hl4, Ne.symm hl1, Ne.symm hl2, Ne.symm hl3, Ne.symm hl4]
    · cases b <;>
        simp [str, ucount_cons, ocount_cons, openTag, List.count_cons,
          hl1, hl2, hl3, hl4, Ne.symm hl1, Ne.symm hl2, Ne.symm hl3, Ne.symm hl4] <;>
        omega
    · rcases hp : popGE lv (cur :: rest) with ⟨cl, stp⟩
      have hb := popGE_balance lv (cur :: rest)
      rw [hp] at hb
      obtain ⟨hb1, hb2, hb3, hb4⟩ := hb
      cases stp with
      | nil =>
        simp only [str, ucount_cons, ucount_nil, ocount_cons, ocount_nil] at hb1 hb2 hb3 hb4
        cases b <;>
          simp [hp, str, ucount_cons, ucount_nil, ocount_cons, ocount_nil, openTag,
            List.count_append, List.count_cons,
            hl1, hl2, hl3, hl4, Ne.symm hl1, Ne.symm hl2, Ne.symm hl3, Ne.symm hl4] <;>
          omega
      | cons s0 stp' =>
        simp only [str, ucount_cons, ucount_nil, ocount_cons, ocount_nil] at hb1 hb2 hb3 hb4
        cases b <;>
          simp [hp, str, ucount_cons, ucount_nil, ocount_cons, ocount_nil, openTag,
            List.count_append, List.count_cons,
            hl1, hl2, hl3, hl4, Ne.symm hl1, Ne.symm hl2, Ne.symm hl3, Ne.symm hl4] <;>
          omega

/-- The non-list lines, which `wrapListItems` passes through unchanged. -/
def passLines (lines : List Str) : List Str :=
  lines.filter (fun l => (liMatch l).isNone)

theorem wrapGo_balance (lines : List Str) : ∀ st : List Frame,
    (wrapGo lines st).count (str "<ul>") + (passLines lines).count (str "</ul>") + ucount st =
      (wrapGo lines st).count (str "</ul>") + (passLines lines).count (str "<ul>") ∧
    (wrapGo lines st).count (str "<ol>") + (passLines lines).count (str "</ol>") + ocount st =
      (wrapGo lines st).count (str "</ol>") + (passLines lines).count (str "<ol>") := by
  induction lines with
  | nil =>
    intro st
    simp [wrapGo, passLines, closeAll_count_ul, closeAll_count_ol,
      closeAll_count_cul, closeAll_count_col]
  | cons l ls ih =>
    intro st
    cases hm : liMatch l with
    | some x =>
      obtain ⟨lv, content⟩ := x
      rcases hws : wrapStep st lv (lineIsOrdered l) content with ⟨out, st'⟩
      obtain ⟨hs1, hs2⟩ := wrapStep_balance st lv (lineIsOrdered l) content
      rw [hws] at hs1 hs2
      dsimp only at hs1 hs2
      obtain ⟨ih1, ih2⟩ := ih st'
      have hpl : passLines (l :: ls) = passLines ls := by
        simp [passLines, List.filter_cons, hm]
      simp only [wrapGo, hm, hws, List.count_append, hpl]
      constructor <;> omega
    | none =>
      obtain ⟨ih1, ih2⟩ := ih []
      simp only [ucount_nil, ocount_nil] at ih1 ih2
      have hpl : passLines (l :: ls) = [l] ++ passLines ls := by
        simp [passLines, List.filter_cons, hm]
      simp only [wrapGo, hm, List.count_append, hpl, closeAll_count_ul, closeAll_count_ol,
        closeAll_count_cul, closeAll_count_col, ucount_nil, ocount_nil]
      constructor <;> omega

theorem splitNl_ne_nil (t : Str) : splitNl t ≠ [] := by
  induction t with
  | nil => simp [splitNl]
  | cons c cs ih =>
    by_cases h : c = '\n'
    · simp [splitNl, h]
    · simp only [splitNl, if_neg h]
      cases hs : splitNl cs with
      | nil => simp
      | cons l ls => simp

theorem splitNl_noNl (t : Str) : ∀ l ∈ splitNl t, '\n' ∉ l := by
  induction t with
  | nil =>
    intro l hl
    simp [splitNl] at hl
    simp [hl]
  | cons c cs ih =>
    intro l hl
    by_cases h : c = '\n'
    · simp only [splitNl, if_pos h, List.mem_cons] at hl
      rcases hl with hl | hl
      · simp [hl]
      · exact ih l hl
    · cases hs : splitNl cs with
      | nil => exact absurd hs (splitNl_ne_nil cs)
      | cons l0 ls =>
        simp only [splitNl, if_neg h, hs, List.mem_cons] at hl
        rcases hl with hl | hl
        · subst hl
          simp only [List.mem_cons, not_or]
          exact ⟨fun he => h he.symm, ih l0 (hs ▸ List.mem_cons_self l0 ls)⟩
        · exact ih l (hs ▸ List.mem_cons_of_mem l0 hl)

theorem splitNl_single {l : Str} (h : '\n' ∉ l) : splitNl l = [l] := by
  induction l with
  | nil => rfl
  | cons c cs ih =>
    have hc : ¬ c = '\n' := fun he => h (he ▸ List.mem_cons_self c cs)
    have ih' := ih (fun hx => h (List.mem_cons_of_mem c hx))
    simp [splitNl, hc, ih']

theorem splitNl_append_nl {a : Str} (b : Str) (h : '\n' ∉ a) :
    splitNl (a ++ '\n' :: b) = a :: splitNl b := by
  induction a with
  | nil => simp [splitNl]
  | cons c cs ih =>
    have hc : ¬ c = '\n' := fun he => h (he ▸ List.mem_cons_self c cs)
    have ih' := ih (fun hx => h (List.mem_cons_of_mem c hx))
    simp only [List.cons_append, splitNl, if_neg hc, List.append_eq, ih']

theorem splitNl_joinNl : ∀ {L : List Str}, (∀ l ∈ L, '\n' ∉ l) → L ≠ [] →
    splitNl (joinNl L) = L := by
  intro L
  induction L with
  | nil => intro _ h; exact absurd rfl h
  | cons l ls ih =>
    intro h _
    cases ls with
    | nil => exact splitNl_single (h l (List.mem_cons_self l []))
    | cons l2 ls2 =>
      have hjoin : joinNl (l :: l2 :: ls2) = l ++ '\n' :: joinNl (l2 :: ls2) := rfl
      rw [hjoin, splitNl_append_nl _ (h l (List.mem_cons_self l _)),
        ih (fun x hx => h x (List.mem_cons_of_mem l hx)) (by simp)]

theorem lastSplit_mem {pat : Str} : ∀ {u a b : Str}, lastSplit pat u = some (a, b) →
    ∀ x ∈ a, x ∈ u := by
  intro u
  induction u with
  | nil =>
    intro a b h x hx
    simp only [lastSplit] at h
    split_ifs at h with hp
    simp at h
    rw [h.1] at hx
    exact absurd hx (List.not_mem_nil x)
  | cons c cs ih =>
    intro a b h x hx
    simp only [lastSplit] at h
    cases hr : lastSplit pat cs with
    | some p =>
      obtain ⟨a', b'⟩ := p
      rw [hr] at h
      simp at h
      rw [← h.1, List.mem_cons] at hx
      rcases hx with hx | hx
      · exact hx ▸ List.mem_cons_self c cs
      · exact List.mem_cons_of_mem c (ih hr x hx)
    | none =>
      rw [hr] at h
      split_ifs at h with hp
      simp at h
      rw [h.1] at hx
      exact absurd hx (List.not_mem_nil x)

theorem liTryAt_mem {s : Str} {lv : Nat} {content : Str}
    (h : liTryAt s = some (lv, content)) : ∀ x ∈ content, x ∈ s := by
  intro x hx
  unfold liTryAt at h
  simp only [] at h
  split_ifs at h with h16 hds hord hplain
  · revert h
    cases hls : lastSplit (str "</li>")
        (((s.drop 16).drop ((s.drop 16).takeWhile isDigitChar).length).drop 22) with
    | none => intro h; exact absurd h (by simp)
    | some p =>
      obtain ⟨cont, rest⟩ := p
      intro h
      simp at h
      rw [← h.2] at hx
      exact List.mem_of_mem_drop (List.mem_of_mem_drop (List.mem_of_mem_drop
        (lastSplit_mem hls x hx)))
  · revert h
    cases hls : lastSplit (str "</li>")
        (((s.drop 16).drop ((s.drop 16).takeWhile isDigitChar).length).drop 2) with
    | none => intro h; exact absurd h (by simp)
    | some p =>
      obtain ⟨cont, rest⟩ := p
      intro h
      simp at h
      rw [← h.2] at hx
      exact List.mem_of_mem_drop (List.mem_of_mem_drop (List.mem_of_mem_drop
        (lastSplit_mem hls x hx)))

theorem liMatch_mem : ∀ {l : Str} {lv : Nat} {content : Str},
    liMatch l = some (lv, content) → ∀ x ∈ content, x ∈ l := by
  intro l
  induction l with
  | nil => intro lv content h; simp [liMatch] at h
  | cons c cs ih =>
    intro lv content h x hx
    simp only [liMatch] at h
    cases ht : liTryAt (c :: cs) with
    | some p =>
      rw [ht] at h
      simp at h
      rw [h] at ht
      exact liTryAt_mem ht x hx
    | none =>
      rw [ht] at h
      exact List.mem_cons_of_mem c (ih h x hx)

theorem noNl_closeTag (f : Frame) : '\n' ∉ closeTag f := by
  cases f with
  | mk lv b => cases b <;> simp [closeTag, str]

theorem noNl_openTag (b : Bool) : '\n' ∉ openTag b := by
  cases b <;> decide

theorem noNl_liLine {c : Str} (h : '\n' ∉ c) : '\n' ∉ liLine c := by
  intro hx
  simp only [liLine, List.append_assoc, List.mem_append] at hx
  rcases hx with hx | hx | hx
  · exact absurd hx (by decide)
  · exact h hx
  · exact absurd hx (by decide)

theorem popGE_noNl (lv : Nat) : ∀ (st : List Frame), ∀ x ∈ (popGE lv st).1, '\n' ∉ x := by
  intro st
  induction st with
  | nil => intro x hx; simp [popGE] at hx
  | cons f fs ih =>
    intro x hx
    by_cases h : lv ≤ f.level
    · rcases hp : popGE lv fs with ⟨cl, stp⟩
      simp only [popGE, if_pos h, hp, List.mem_cons] at hx
      rcases hx with hx | hx
      · exact hx ▸ noNl_closeTag f
      · exact ih x (by rw [hp]; exact hx)
    · simp [popGE, h] at hx

theorem closeAll_noNl (st : List Frame) : ∀ x ∈ closeAll st, '\n' ∉ x := by
  intro x hx
  simp only [closeAll, List.mem_map] at hx
  obtain ⟨f, _, hf⟩ := hx
  exact hf ▸ noNl_closeTag f

theorem wrapStep_noNl {st : List Frame} {lv : Nat} {b : Bool} {c : Str} (hc : '\n' ∉ c) :
    ∀ x ∈ (wrapStep st lv b c).1, '\n' ∉ x := by
  intro x hx
  cases st with
  | nil =>
    simp only [wrapStep, List.mem_cons] at hx
    rcases hx with hx | hx | hx
    · exact hx ▸ noNl_openTag b
    · exact hx ▸ noNl_liLine hc
    · simp at hx
  | cons cur rest =>
    simp only [wrapStep] at hx
    split_ifs at hx with he hg
    · simp only [List.mem_cons] at hx
      rcases hx with hx | hx
      · exact hx ▸ noNl_liLine hc
      · simp at hx
    · simp only [List.mem_cons] at hx
      rcases hx with hx | hx | hx
      · exact hx ▸ noNl_openTag b
      · exact hx ▸ noNl_liLine hc
      · simp at hx
    · rcases hp : popGE lv (cur :: rest) with ⟨cl, stp⟩
      rw [hp] at hx
      cases stp with
      | nil =>
        simp only [List.mem_append, List.mem_cons] at hx
        rcases hx with hx | hx | hx | hx
        · exact popGE_noNl lv (cur :: rest) x (by rw [hp]; exact hx)
        · exact hx ▸ noNl_openTag b
        · exact hx ▸ noNl_liLine hc
        · simp at hx
      | cons s0 stp' =>
        simp only [List.mem_append, List.mem_cons] at hx
        rcases hx with hx | hx | hx
        · exact popGE_noNl lv (cur :: rest) x (by rw [hp]; exact hx)
        · exact hx ▸ noNl_liLine hc
        · simp at hx

theorem wrapGo_noNl : ∀ (lines : List Str) (st : List Frame),
    (∀ l ∈ lines, '\n' ∉ l) → ∀ x ∈ wrapGo lines st, '\n' ∉ x := by
  intro lines
  induction lines with
  | nil =>
    intro st _ x hx
    exact closeAll_noNl st x hx
  | cons l ls ih =>
    intro st hl x hx
    have hlhd : '\n' ∉ l := hl l (List.mem_cons_self l ls)
    have hltl : ∀ l' ∈ ls, '\n' ∉ l' := fun l' h' => hl l' (List.mem_cons_of_mem l h')
    cases hm : liMatch l with
    | some p =>
      obtain ⟨lv, content⟩ := p
      have hcont : '\n' ∉ content := fun hcm => hlhd (liMatch_mem hm '\n' hcm)
      rcases hws : wrapStep st lv (lineIsOrdered l) content with ⟨out, st'⟩
      simp only [wrapGo, hm, hws, List.mem_append] at hx
      rcases hx with hx | hx
      · exact wrapStep_noNl hcont x (by rw [hws]; exact hx)
      · exact ih st' hltl x hx
    | none =>
      simp only [wrapGo, hm, List.mem_append, List.mem_cons] at hx
      rcases hx with (hx | hx) | hx
      · exact closeAll_noNl st x hx
      · simp at hx
        exact hx ▸ hlhd
      · exact ih [] hltl x hx

theorem wrapGo_ne_nil (l : Str) (ls : List Str) (st : List Frame) :
    wrapGo (l :: ls) st ≠ [] := by
  cases hm : liMatch l with
  | some p =>
    obtain ⟨lv, content⟩ := p
    rcases hws : wrapStep st lv (lineIsOrdered l) content with ⟨out, st'⟩
    have hout : out ≠ [] := by
      cases st with
      | nil => simp [wrapStep] at hws; rw [← hws.1]; simp
      | cons cur rest =>
        simp only [wrapStep] at hws
        split_ifs at hws with he hg
        · rw [← (Prod.mk.injEq _ _ _ _ |>.mp hws).1]; simp
        · rw [← (Prod.mk.injEq _ _ _ _ |>.mp hws).1]; simp
        · rcases hp : popGE lv (cur :: rest) with ⟨cl, stp⟩
          rw [hp] at hws
          cases stp with
          | nil => rw [← (Prod.mk.injEq _ _ _ _ |>.mp hws).1]; simp
          | cons s0 stp' => rw [← (Prod.mk.injEq _ _ _ _ |>.mp hws).1]; simp
    simp only [wrapGo, hm, hws]
    intro hcontra
    exact hout (List.append_eq_nil.mp hcontra).1
  | none =>
    simp [wrapGo, hm]

/-- C5.  The list-reconstruction pass never leaves an unterminated list:
counting whole lines of its output, the `<ul>`/`</ul>` (and `<ol>`/`</ol>`)
tags it emits are balanced — input lines that already equal a tag and are
merely passed through unchanged (`passLines`) are discounted on both sides.
This holds for **every** input, covering both the close-on-non-list-line
case and the close-at-end-of-input case. -/
theorem c5_list_balance (t : Str) :
    (splitNl (wrapListItems t)).count (str "<ul>") +
      (passLines (splitNl t)).count (str "</ul>") =
    (splitNl (wrapListItems t)).count (str "</ul>") +
      (passLines (splitNl t)).count (str "<ul>") ∧
    (splitNl (wrapListItems t)).count (str "<ol>") +
      (passLines (splitNl t)).count (str "</ol>") =
    (splitNl (wrapListItems t)).count (str "</ol>") +
      (passLines (splitNl t)).count (str "<ol>") := by
  have hnl : ∀ l ∈ splitNl t, '\n' ∉ l := splitNl_noNl t
  have hout : splitNl (wrapListItems t) = wrapGo (splitNl t) [] := by
    unfold wrapListItems
    apply splitNl_joinNl (wrapGo_noNl (splitNl t) [] hnl)
    cases hs : splitNl t with
    | nil => exact absurd hs (splitNl_ne_nil t)
    | cons l ls => exact wrapGo_ne_nil l ls []
  rw [hout]
  have hb := wrapGo_balance (splitNl t) []
  rw [ucount_nil, ocount_nil] at hb
  omega

/-!
## C9: idempotence on marker-free input

The round-trip claim is settled for inputs containing no markdown syntax.
What follows is a toolkit of string lemmas (prefix/suffix/occurrence
decompositions over append, split/join inverses), then identity lemmas for
each pass, a characterisation of the first parse's output, and finally the
idempotence theorem.
-/

/-- `pat` is a suffix of `s`. -/
def isSuf (pat s : Str) : Bool := isPre pat.reverse s.reverse

theorem isPre_refl : ∀ (u : Str), isPre u u = true := by
  intro u
  induction u with
  | nil => rfl
  | cons c cs ih => simp [isPre, ih]

theorem isPre_append_left : ∀ {p m : Str} (u : Str), isPre p m = true → isPre p (m ++ u) = true := by
  intro p
  induction p with
  | nil => intro m u _; rfl
  | cons c cs ih =>
    intro m u h
    cases m with
    | nil => simp [isPre] at h
    | cons d ds =>
      simp only [List.cons_append, isPre, Bool.and_eq_true, beq_iff_eq] at h ⊢
      exact ⟨h.1, ih u h.2⟩

theorem isPre_append_short : ∀ {p a : Str} (b : Str), p.length ≤ a.length →
    isPre p (a ++ b) = isPre p a := by
  intro p
  induction p with
  | nil => intro a b _; rfl
  | cons c cs ih =>
    intro a b h
    cases a with
    | nil => simp at h
    | cons d ds =>
      simp only [List.cons_append, isPre, List.append_eq]
      rw [ih b (by simpa using h)]

theorem isPre_append_long : ∀ {p a : Str} (b : Str), a.length < p.length →
    isPre p (a ++ b) = true → p.take a.length = a ∧ isPre (p.drop a.length) b = true := by
  intro p
  induction p with
  | nil => intro a b h; simp at h
  | cons c cs ih =>
    intro a b h hp
    cases a with
    | nil => exact ⟨rfl, hp⟩
    | cons d ds =>
      simp only [List.cons_append, isPre, Bool.and_eq_true, beq_iff_eq] at hp
      obtain ⟨h1, h2⟩ := ih b (by simpa using h) hp.2
      refine ⟨?_, h2⟩
      simp [List.take, h1, hp.1]

theorem isPre_of_append_pat : ∀ {q r u : Str}, isPre (q ++ r) u = true → isPre q u = true := by
  intro q
  induction q with
  | nil => intro r u _; rfl
  | cons c cs ih =>
    intro r u h
    cases u with
    | nil => simp [isPre] at h
    | cons d ds =>
      simp only [List.cons_append, isPre, Bool.and_eq_true] at h ⊢
      exact ⟨h.1, ih h.2⟩

theorem hasSub_of_isPre {p u : Str} (h : isPre p u = true) : hasSub p u = true := by
  cases u with
  | nil => simpa [hasSub] using h
  | cons c cs => simp [hasSub, h]

theorem hasSub_cons_of {p : Str} (c : Char) {u : Str} (h : hasSub p u = true) :
    hasSub p (c :: u) = true := by
  simp [hasSub, h]

theorem hasSub_of_append_pat : ∀ {q r u : Str}, hasSub (q ++ r) u = true → hasSub q u = true := by
  intro q r u
  induction u with
  | nil =>
    intro h
    simp only [hasSub] at h ⊢
    exact isPre_of_append_pat h
  | cons c cs ih =>
    intro h
    simp only [hasSub, Bool.or_eq_true] at h ⊢
    rcases h with h | h
    · exact Or.inl (isPre_of_append_pat h)
    · exact Or.inr (ih h)

theorem hasSub_head_mem : ∀ {c : Char} {p u : Str}, hasSub (c :: p) u = true → c ∈ u := by
  intro c p u
  induction u with
  | nil => intro h; simp [hasSub, isPre] at h
  | cons d ds ih =>
    intro h
    simp only [hasSub, Bool.or_eq_true] at h
    rcases h with h | h
    · simp only [isPre, Bool.and_eq_true, beq_iff_eq] at h
      exact h.1 ▸ List.mem_cons_self d ds
    · exact List.mem_cons_of_mem d (ih h)

theorem hasSub_append_left : ∀ {p m : Str} (u : Str), hasSub p m = true →
    hasSub p (m ++ u) = true := by
  intro p m
  induction m with
  | nil =>
    intro u h
    simp only [hasSub] at h
    simp only [List.nil_append]
    exact hasSub_of_isPre (isPre_append_left (m := []) u h)
  | cons c cs ih =>
    intro u h
    simp only [hasSub, Bool.or_eq_true] at h
    rcases h with h | h
    · exact hasSub_of_isPre (isPre_append_left u h)
    · exact hasSub_cons_of c (ih u h)

theorem hasSub_append_right : ∀ (m : Str) {p u : Str}, hasSub p u = true →
    hasSub p (m ++ u) = true := by
  intro m
  induction m with
  | nil => intro p u h; simpa using h
  | cons c cs ih => intro p u h; exact hasSub_cons_of c (ih h)

/-- Decomposition of an occurrence over an append: it lies in the left
part, in the right part, or straddles the boundary with a nonempty prefix
of the pattern ending the left part. -/
theorem hasSub_append_split : ∀ {a : Str} (b : Str) {p : Str}, hasSub p (a ++ b) = true →
    hasSub p a = true ∨ hasSub p b = true ∨
    ∃ k, 0 < k ∧ k < p.length ∧ isSuf (p.take k) a = true ∧ isPre (p.drop k) b = true := by
  intro a
  induction a with
  | nil => intro b p h; exact Or.inr (Or.inl (by simpa using h))
  | cons c cs ih =>
    intro b p h
    simp only [List.cons_append, hasSub, Bool.or_eq_true] at h
    rcases h with h | h
    · have h' : isPre p ((c :: cs) ++ b) = true := h
      by_cases hl : p.length ≤ (c :: cs).length
      · rw [isPre_append_short b hl] at h'
        exact Or.inl (hasSub_of_isPre h')
      · push_neg at hl
        obtain ⟨h1, h2⟩ := isPre_append_long b hl h'
        refine Or.inr (Or.inr ⟨(c :: cs).length, by simp, hl, ?_, h2⟩)
        rw [h1]
        show isPre (c :: cs).reverse (c :: cs).reverse = true
        exact isPre_refl _
    · rcases ih b h with h' | h' | ⟨k, hk1, hk2, hk3, hk4⟩
      · exact Or.inl (hasSub_cons_of c h')
      · exact Or.inr (Or.inl h')
      · refine Or.inr (Or.inr ⟨k, hk1, hk2, ?_, hk4⟩)
        simp only [isSuf, List.reverse_cons] at hk3 ⊢
        exact isPre_append_left _ hk3

theorem joinNl_splitNl : ∀ u : Str, joinNl (splitNl u) = u := by
  intro u
  induction u with
  | nil => rfl
  | cons c cs ih =>
    cases hs : splitNl cs with
    | nil => exact absurd hs (splitNl_ne_nil cs)
    | cons l ls =>
      rw [hs] at ih
      by_cases h : c = '\n'
      · subst h
        simp only [splitNl, if_pos rfl, hs]
        show '\n' :: joinNl (l :: ls) = '\n' :: cs
        rw [ih]
      · simp only [splitNl, if_neg h, hs]
        cases ls with
        | nil =>
          show c :: l = c :: cs
          rw [show joinNl [l] = l from rfl] at ih
          rw [ih]
        | cons l2 ls2 =>
          show (c :: l) ++ '\n' :: joinNl (l2 :: ls2) = c :: cs
          rw [show joinNl (l :: l2 :: ls2) = l ++ '\n' :: joinNl (l2 :: ls2) from rfl] at ih
          rw [List.cons_append, ih]

theorem splitNl_append_cons : ∀ (a b : Str), splitNl (a ++ '\n' :: b) = splitNl a ++ splitNl b := by
  intro a
  induction a with
  | nil => intro b; simp [splitNl]
  | cons c cs ih =>
    intro b
    by_cases h : c = '\n'
    · subst h
      show splitNl ('\n' :: (cs ++ '\n' :: b)) = splitNl ('\n' :: cs) ++ splitNl b
      simp only [splitNl, if_pos rfl, ih b, List.cons_append, if_true]
    · show splitNl (c :: (cs ++ '\n' :: b)) = splitNl (c :: cs) ++ splitNl b
      cases hs : splitNl cs with
      | nil => exact absurd hs (splitNl_ne_nil cs)
      | cons l ls =>
        simp only [splitNl, if_neg h, ih b, hs, List.cons_append]

theorem lines_prepend {a : Str} (ha : '\n' ∉ a) : ∀ (v : Str) (l0 : Str) (ls : List Str),
    splitNl v = l0 :: ls → splitNl (a ++ v) = (a ++ l0) :: ls := by
  induction a with
  | nil => intro v l0 ls h; simpa using h
  | cons c cs ih =>
    intro v l0 ls h
    have hc : ¬ c = '\n' := fun he => ha (he ▸ List.mem_cons_self c cs)
    have ih' := ih (fun hx => ha (List.mem_cons_of_mem c hx)) v l0 ls h
    show splitNl (c :: (cs ++ v)) = (c :: (cs ++ l0)) :: ls
    simp only [splitNl, if_neg hc, ih']

/-- Last element of a list of lines, `[]` when empty. -/
def lastD : List Str → Str
  | [] => []
  | [l] => l
  | _ :: l2 :: ls => lastD (l2 :: ls)

theorem lines_append_tail {t : Str} (ht : '\n' ∉ t) : ∀ (v : Str),
    splitNl (v ++ t) = (splitNl v).dropLast ++ [lastD (splitNl v) ++ t] := by
  intro v
  induction v with
  | nil => simp [splitNl_single ht, splitNl, lastD]
  | cons c cs ih =>
    cases hs : splitNl cs with
    | nil => exact absurd hs (splitNl_ne_nil cs)
    | cons l ls =>
      rw [hs] at ih
      by_cases h : c = '\n'
      · subst h
        show splitNl ('\n' :: (cs ++ t)) = (splitNl ('\n' :: cs)).dropLast ++
          [lastD (splitNl ('\n' :: cs)) ++ t]
        simp only [splitNl, if_pos rfl, ih, hs]
        cases ls with
        | nil => simp [lastD]
        | cons l2 ls2 => simp [lastD]
      · show splitNl (c :: (cs ++ t)) = (splitNl (c :: cs)).dropLast ++
          [lastD (splitNl (c :: cs)) ++ t]
        simp only [splitNl, if_neg h, ih, hs]
        cases ls with
        | nil => simp [lastD]
        | cons l2 ls2 => simp [lastD]

theorem lastD_concat : ∀ (A : List Str) (x : Str), lastD (A ++ [x]) = x := by
  intro A x
  induction A with
  | nil => rfl
  | cons a A' ih =>
    cases hA : A' ++ [x] with
    | nil => simp at hA
    | cons y ys =>
      show lastD (a :: (A' ++ [x])) = x
      rw [hA, show lastD (a :: y :: ys) = lastD (y :: ys) from rfl, ← hA, ih]

theorem splitNl_reverse : ∀ u : Str, splitNl u.reverse = ((splitNl u).map List.reverse).reverse := by
  intro u
  induction u with
  | nil => rfl
  | cons c cs ih =>
    by_cases h : c = '\n'
    · subst h
      rw [List.reverse_cons,
        show (cs.reverse ++ ['\n'] : Str) = cs.reverse ++ '\n' :: [] from rfl,
        splitNl_append_cons, ih]
      simp only [splitNl, if_pos rfl]
      show _ = ((([] : Str) :: splitNl cs).map List.reverse).reverse
      simp [splitNl]
    · cases hs : splitNl cs with
      | nil => exact absurd hs (splitNl_ne_nil cs)
      | cons l ls =>
        rw [List.reverse_cons, lines_append_tail (by simp [eq_comm, h]) cs.reverse, ih, hs]
        simp only [splitNl, if_neg h, hs, List.map_cons, List.reverse_cons]
        rw [List.dropLast_concat, lastD_concat]

/-!
## C9 kit, part 1: substring characterisations and append lemmas
-/

theorem isPre_iff : ∀ {p u : Str}, isPre p u = true ↔ ∃ t, u = p ++ t := by
  intro p
  induction p with
  | nil => intro u; simp [isPre]
  | cons c cs ih =>
    intro u
    cases u with
    | nil =>
      simp only [isPre]
      constructor
      · intro h; exact absurd h (by simp)
      · rintro ⟨t, ht⟩; simp at ht
    | cons d ds =>
      simp only [isPre, Bool.and_eq_true, beq_iff_eq]
      constructor
      · rintro ⟨rfl, h⟩
        obtain ⟨t, rfl⟩ := ih.mp h
        exact ⟨t, rfl⟩
      · rintro ⟨t, ht⟩
        rw [List.cons_append] at ht
        injection ht with h1 h2
        exact ⟨h1.symm, ih.mpr ⟨t, h2⟩⟩

theorem hasSub_iff : ∀ {p u : Str}, hasSub p u = true ↔ ∃ a t, u = a ++ (p ++ t) := by
  intro p u
  induction u with
  | nil =>
    simp only [hasSub]
    rw [isPre_iff]
    constructor
    · rintro ⟨t, ht⟩; exact ⟨[], t, by simpa using ht⟩
    · rintro ⟨a, t, h⟩
      cases a with
      | nil => exact ⟨t, by simpa using h⟩
      | cons x xs => simp at h
  | cons c cs ih =>
    simp only [hasSub, Bool.or_eq_true]
    constructor
    · rintro (h | h)
      · obtain ⟨t, ht⟩ := isPre_iff.mp h
        exact ⟨[], t, by simpa using ht⟩
      · obtain ⟨a, t, ht⟩ := ih.mp h
        exact ⟨c :: a, t, by rw [ht]; rfl⟩
    · rintro ⟨a, t, ht⟩
      cases a with
      | nil =>
        exact Or.inl (isPre_iff.mpr ⟨t, by simpa using ht⟩)
      | cons x xs =>
        rw [List.cons_append] at ht
        injection ht with h1 h2
        exact Or.inr (ih.mpr ⟨xs, t, h2⟩)

theorem hasSub_length {p u : Str} (h : hasSub p u = true) : p.length ≤ u.length := by
  obtain ⟨a, t, rfl⟩ := hasSub_iff.mp h
  simp only [List.length_append]
  omega

theorem hasSub_of_sub {p t : Str} (a e : Str) (h : hasSub p t = true) :
    hasSub p (a ++ t ++ e) = true := by
  obtain ⟨b, r, rfl⟩ := hasSub_iff.mp h
  exact hasSub_iff.mpr ⟨a ++ b, r ++ e, by simp⟩

theorem isSuf_concat_eq {q m : Str} {x z : Char}
    (h : isSuf (q ++ [x]) (m ++ [z]) = true) : x = z := by
  unfold isSuf at h
  rw [List.reverse_append, List.reverse_append] at h
  simp only [List.reverse_cons, List.reverse_nil, List.nil_append, List.singleton_append] at h
  simp only [isPre, Bool.and_eq_true, beq_iff_eq] at h
  exact h.1

theorem isSuf_ne_last {q m : Str} {x z : Char} (h : x ≠ z) :
    isSuf (q ++ [x]) (m ++ [z]) = false := by
  cases hs : isSuf (q ++ [x]) (m ++ [z]) with
  | false => rfl
  | true => exact absurd (isSuf_concat_eq hs) h

theorem isPre_ne_head {c d : Char} (q u : Str) (h : c ≠ d) :
    isPre (c :: q) (d :: u) = false := by
  simp [isPre, h]

theorem dropWhile_head_not {p : Char → Bool} : ∀ {l : Str} {c : Char} {t : Str},
    l.dropWhile p = c :: t → p c = false := by
  intro l
  induction l with
  | nil => intro c t h; simp [List.dropWhile] at h
  | cons x xs ih =>
    intro c t h
    cases hpx : p x with
    | true => simp only [List.dropWhile, hpx] at h; exact ih h
    | false =>
      simp only [List.dropWhile, hpx] at h
      injection h with h1 _
      rwa [← h1]

theorem dropWhile_append_ne_nil {p : Char → Bool} : ∀ {a : Str} {c : Char} {t : Str} (X : Str),
    a.dropWhile p = c :: t → (a ++ X).dropWhile p = c :: (t ++ X) := by
  intro a
  induction a with
  | nil => intro c t X h; simp [List.dropWhile] at h
  | cons x xs ih =>
    intro c t X h
    cases hpx : p x with
    | true =>
      simp only [List.dropWhile, hpx] at h
      simp only [List.cons_append, List.dropWhile, hpx]
      exact ih X h
    | false =>
      simp only [List.dropWhile, hpx] at h
      injection h with h1 h2
      simp only [List.cons_append, List.dropWhile, hpx]
      rw [h1, h2]
      rfl

theorem takeWhile_append_stop {p : Char → Bool} : ∀ {a : Str} {c : Char} {t : Str} (X : Str),
    a.dropWhile p = c :: t → (a ++ X).takeWhile p = a.takeWhile p := by
  intro a
  induction a with
  | nil => intro c t X h; simp [List.dropWhile] at h
  | cons x xs ih =>
    intro c t X h
    cases hpx : p x with
    | true =>
      simp only [List.dropWhile, hpx] at h
      simp only [List.cons_append, List.takeWhile, List.append_eq, hpx]
      rw [ih X h]
    | false =>
      simp only [List.cons_append, List.takeWhile, hpx]

theorem takeWhile_append_all {p : Char → Bool} : ∀ {a : Str} (X : Str), (∀ x ∈ a, p x = true) →
    (a ++ X).takeWhile p = a ++ X.takeWhile p ∧ (a ++ X).dropWhile p = X.dropWhile p := by
  intro a
  induction a with
  | nil => intro X _; simp
  | cons x xs ih =>
    intro X h
    have hx : p x = true := h x (List.mem_cons_self x xs)
    have ih' := ih X (fun d hd => h d (List.mem_cons_of_mem x hd))
    constructor
    · simp [List.takeWhile, hx, ih'.1]
    · simp [List.dropWhile, hx, ih'.2]

theorem dropWhile_all {p : Char → Bool} : ∀ {l : Str}, l.dropWhile p = [] → ∀ x ∈ l, p x = true := by
  intro l
  induction l with
  | nil => intro _ x hx; simp at hx
  | cons c cs ih =>
    intro h x hx
    cases hpc : p c with
    | true =>
      simp only [List.dropWhile, hpc] at h
      rcases List.mem_cons.mp hx with rfl | hx'
      · exact hpc
      · exact ih h x hx'
    | false =>
      simp only [List.dropWhile, hpc] at h
      exact absurd h (by simp)

theorem nl_split {a u P Q : Str} (h : a ++ '\n' :: u = P ++ Q) :
    (∃ w, P = a ++ '\n' :: w ∧ u = w ++ Q) ∨ (∃ a2, a = P ++ a2 ∧ a2 ++ '\n' :: u = Q) := by
  rcases List.append_eq_append_iff.mp h with ⟨a2, h1, h2⟩ | ⟨c2, h1, h2⟩
  · cases a2 with
    | nil =>
      right
      refine ⟨[], by simpa using h1.symm, ?_⟩
      simpa using h2
    | cons x xs =>
      left
      rw [List.cons_append] at h2
      injection h2 with hx hrest
      exact ⟨xs, by rw [h1, ← hx], hrest⟩
  · right
    exact ⟨c2, h1, h2.symm⟩

/-!
## C9 kit, part 2: `trimWs` decomposition and `split2Nl`/`join2Nl` structure
-/

theorem takeWhile_mem {p : Char → Bool} : ∀ {l : Str} {x : Char}, x ∈ l.takeWhile p → p x = true := by
  intro l
  induction l with
  | nil => intro x hx; simp [List.takeWhile] at hx
  | cons c cs ih =>
    intro x hx
    cases hpc : p c with
    | true =>
      simp only [List.takeWhile, hpc] at hx
      rcases List.mem_cons.mp hx with rfl | hx'
      · exact hpc
      · exact ih hx'
    | false =>
      simp only [List.takeWhile, hpc] at hx
      exact absurd hx (by simp)

theorem trimWs_sub (b : Str) : ∃ a e, b = a ++ (trimWs b ++ e) ∧
    (∀ c ∈ a, isWsChar c = true) ∧ (∀ c ∈ e, isWsChar c = true) := by
  refine ⟨b.takeWhile isWsChar, ((b.dropWhile isWsChar).reverse.takeWhile isWsChar).reverse,
    ?_, fun c hc => takeWhile_mem hc, fun c hc => takeWhile_mem (List.mem_reverse.mp hc)⟩
  conv_lhs => rw [← List.takeWhile_append_dropWhile (p := isWsChar) (l := b)]
  congr 1
  unfold trimWs
  rw [← List.reverse_append, List.takeWhile_append_dropWhile, List.reverse_reverse]

theorem hasSub_trimWs {p b : Str} (h : hasSub p (trimWs b) = true) : hasSub p b = true := by
  obtain ⟨a, e, hb, _, _⟩ := trimWs_sub b
  rw [hb]
  have := hasSub_of_sub a e h
  rwa [List.append_assoc] at this

theorem mem_trimWs {c : Char} {b : Str} (h : c ∈ trimWs b) : c ∈ b := by
  obtain ⟨a, e, hb, _, _⟩ := trimWs_sub b
  rw [hb]
  simp [h]

theorem trimWs_head {b : Str} {c : Char} {t : Str} (h : trimWs b = c :: t) :
    isWsChar c = false := by
  have h1 := trimWs_no_lead b
  rw [h] at h1
  cases hpc : isWsChar c with
  | false => rfl
  | true =>
    simp only [List.dropWhile, hpc] at h1
    have h2 := length_dropWhile_le isWsChar t
    rw [h1] at h2
    simp at h2

theorem trimWs_last {b : Str} {m : Str} {d : Char} (h : trimWs b = m ++ [d]) :
    isWsChar d = false := by
  have hrev : (trimWs b).reverse = (b.dropWhile isWsChar).reverse.dropWhile isWsChar := by
    unfold trimWs
    rw [List.reverse_reverse]
  rw [h, List.reverse_append] at hrev
  simp only [List.reverse_cons, List.reverse_nil, List.nil_append, List.singleton_append] at hrev
  exact dropWhile_head_not hrev.symm

theorem trimWs_shape {b : Str} (h : trimWs b ≠ []) :
    (∃ c t, trimWs b = c :: t ∧ isWsChar c = false) ∧
    (∃ m d, trimWs b = m ++ [d] ∧ isWsChar d = false) := by
  cases ht : trimWs b with
  | nil => exact absurd ht h
  | cons c t =>
    refine ⟨⟨c, t, rfl, trimWs_head ht⟩, ?_⟩
    rcases List.eq_nil_or_concat (c :: t) with h2 | ⟨m, d, h2⟩
    · simp at h2
    · rw [List.concat_eq_append] at h2
      exact ⟨m, d, h2, trimWs_last (ht.trans h2)⟩

theorem split2Nl_2nl (cs : Str) : split2Nl ('\n' :: '\n' :: cs) = [] :: split2Nl cs := rfl

theorem split2Nl_other {c : Char} {cs : Str} (h : isPre (str "\n\n") (c :: cs) = false) :
    split2Nl (c :: cs) =
      (match split2Nl cs with | [] => [[c]] | l :: ls => (c :: l) :: ls) := by
  rw [split2Nl.eq_def]
  split
  · rename_i cs2 heq
    injection heq with h1 h2
    subst h1
    subst h2
    simp [isPre, str] at h
  · rename_i c2 cs2 hne heq
    injection heq with h1 h2
    subst h1
    subst h2
    rfl
  · rename_i heq
    exact absurd heq (by simp)

theorem split2Nl_invF : ∀ (n : Nat) (u : Str), u.length ≤ n →
    ∃ l ls, split2Nl u = l :: ls ∧ isPre l u = true ∧
      ∀ b ∈ l :: ls, hasSub (str "\n\n") b = false := by
  intro n
  induction n with
  | zero =>
    intro u hu
    have : u = [] := List.eq_nil_of_length_eq_zero (Nat.le_zero.mp hu)
    subst this
    exact ⟨[], [], rfl, rfl, by intro b hb; simp at hb; subst hb; rfl⟩
  | succ n ih =>
    intro u hu
    rcases u with _ | ⟨c, _ | ⟨d, cs⟩⟩
    · exact ⟨[], [], rfl, rfl, by intro b hb; simp at hb; subst hb; rfl⟩
    ·
      have hpre : isPre (str "\n\n") [c] = false := by
        simp [isPre, str]
      rw [split2Nl_other hpre]
      refine ⟨[c], [], rfl, by simp [isPre], ?_⟩
      intro b hb
      simp only [List.mem_cons] at hb
      rcases hb with rfl | hb
      · simp [hasSub, isPre, str]
      · simp at hb
    ·
      have hcs : cs.length ≤ n := by
        simp only [List.length_cons] at hu
        omega
      have hdc : (d :: cs).length ≤ n := by
        simp only [List.length_cons] at hu ⊢
        omega
      by_cases h2 : c = '\n' ∧ d = '\n'
      · obtain ⟨rfl, rfl⟩ := h2
        obtain ⟨l, ls, hs, hpre, hno⟩ := ih cs hcs
        rw [split2Nl_2nl, hs]
        refine ⟨[], l :: ls, rfl, rfl, ?_⟩
        intro b hb
        rcases List.mem_cons.mp hb with rfl | hb'
        · rfl
        · exact hno b hb'
      · have hpre2 : isPre (str "\n\n") (c :: d :: cs) = false := by
        -- isPre "\n\n" (c::d::cs) = ('\n' == c && ('\n' == d && true))
          cases hn : isPre (str "\n\n") (c :: d :: cs) with
          | false => rfl
          | true =>
            simp only [str, isPre, Bool.and_eq_true, beq_iff_eq] at hn
            exact absurd ⟨hn.1.symm, hn.2.1.symm⟩ h2
        obtain ⟨l, ls, hs, hpre, hno⟩ := ih (d :: cs) hdc
        rw [split2Nl_other hpre2, hs]
        refine ⟨c :: l, ls, rfl, ?_, ?_⟩
        · simp [isPre, hpre]
        · intro b hb
          rcases List.mem_cons.mp hb with rfl | hb'
          · simp only [hasSub, Bool.or_eq_true]
            rw [hno l (List.mem_cons_self l ls)]
            simp only [Bool.or_false]
            cases hp : isPre (str "\n\n") (c :: l) with
            | false => rfl
            | true =>
              cases l with
              | nil => simp [str, isPre] at hp
              | cons e l' =>
                simp only [str, isPre, Bool.and_eq_true, beq_iff_eq] at hp
                have he : e = d := by
                  cases hq : isPre (e :: l') (d :: cs) with
                  | false => rw [hq] at hpre; exact absurd hpre (by simp)
                  | true =>
                    simp only [isPre, Bool.and_eq_true, beq_iff_eq] at hq
                    exact hq.1
                exact absurd ⟨hp.1.symm, he ▸ hp.2.1.symm⟩ h2
          · exact hno b (List.mem_cons_of_mem l hb')

theorem split2Nl_ne_nil (u : Str) : split2Nl u ≠ [] := by
  obtain ⟨l, ls, hs, _, _⟩ := split2Nl_invF u.length u (Nat.le_refl _)
  rw [hs]
  simp

theorem split2Nl_no2nl {u : Str} : ∀ b ∈ split2Nl u, hasSub (str "\n\n") b = false := by
  obtain ⟨l, ls, hs, _, hno⟩ := split2Nl_invF u.length u (Nat.le_refl _)
  rw [hs]
  exact hno

theorem join2Nl_split2NlF : ∀ (n : Nat) (u : Str), u.length ≤ n →
    join2Nl (split2Nl u) = u := by
  intro n
  induction n with
  | zero =>
    intro u hu
    have : u = [] := List.eq_nil_of_length_eq_zero (Nat.le_zero.mp hu)
    subst this
    rfl
  | succ n ih =>
    intro u hu
    rcases u with _ | ⟨c, _ | ⟨d, cs⟩⟩
    · rfl
    · rw [split2Nl_other (by simp [isPre, str])]
      rfl
    · have hcs : cs.length ≤ n := by
        simp only [List.length_cons] at hu
        omega
      have hdc : (d :: cs).length ≤ n := by
        simp only [List.length_cons] at hu ⊢
        omega
      by_cases h2 : c = '\n' ∧ d = '\n'
      · obtain ⟨rfl, rfl⟩ := h2
        rw [split2Nl_2nl]
        obtain ⟨l, ls, hs, _, _⟩ := split2Nl_invF cs.length cs (Nat.le_refl _)
        rw [hs]
        show '\n' :: '\n' :: join2Nl (l :: ls) = '\n' :: '\n' :: cs
        rw [← hs, ih cs hcs]
      · have hpre2 : isPre (str "\n\n") (c :: d :: cs) = false := by
          cases hn : isPre (str "\n\n") (c :: d :: cs) with
          | false => rfl
          | true =>
            simp only [str, isPre, Bool.and_eq_true, beq_iff_eq] at hn
            exact absurd ⟨hn.1.symm, hn.2.1.symm⟩ h2
        rw [split2Nl_other hpre2]
        obtain ⟨l, ls, hs, _, _⟩ := split2Nl_invF (d :: cs).length (d :: cs) (Nat.le_refl _)
        rw [hs]
        have ih' := ih (d :: cs) hdc
        rw [hs] at ih'
        cases ls with
        | nil =>
          show c :: l = c :: d :: cs
          rw [show join2Nl [l] = l from rfl] at ih'
          rw [ih']
        | cons l2 ls2 =>
          show (c :: l) ++ '\n' :: '\n' :: join2Nl (l2 :: ls2) = c :: d :: cs
          rw [show join2Nl (l :: l2 :: ls2) = l ++ '\n' :: '\n' :: join2Nl (l2 :: ls2) from rfl] at ih'
          rw [List.cons_append, ih']

theorem join2Nl_split2Nl (u : Str) : join2Nl (split2Nl u) = u :=
  join2Nl_split2NlF u.length u (Nat.le_refl _)

theorem join2Nl_sub_of_mem : ∀ {L : List Str} {b : Str}, b ∈ L →
    ∃ p q, join2Nl L = p ++ (b ++ q) := by
  intro L
  induction L with
  | nil => intro b hb; simp at hb
  | cons i L' ih =>
    intro b hb
    rcases List.mem_cons.mp hb with rfl | hb'
    · cases L' with
      | nil => exact ⟨[], [], by simp [join2Nl]⟩
      | cons i2 L2 =>
        exact ⟨[], '\n' :: '\n' :: join2Nl (i2 :: L2), by simp [join2Nl]⟩
    · obtain ⟨p, q, hp⟩ := ih hb'
      cases L' with
      | nil => simp at hb'
      | cons i2 L2 =>
        refine ⟨i ++ '\n' :: '\n' :: p, q, ?_⟩
        show i ++ '\n' :: '\n' :: join2Nl (i2 :: L2) = _
        rw [hp]
        simp

theorem joinNl_sub_of_mem : ∀ {L : List Str} {b : Str}, b ∈ L →
    ∃ p q, joinNl L = p ++ (b ++ q) := by
  intro L
  induction L with
  | nil => intro b hb; simp at hb
  | cons i L' ih =>
    intro b hb
    rcases List.mem_cons.mp hb with rfl | hb'
    · cases L' with
      | nil => exact ⟨[], [], by simp [joinNl]⟩
      | cons i2 L2 =>
        exact ⟨[], '\n' :: joinNl (i2 :: L2), by simp [joinNl]⟩
    · obtain ⟨p, q, hp⟩ := ih hb'
      cases L' with
      | nil => simp at hb'
      | cons i2 L2 =>
        refine ⟨i ++ '\n' :: p, q, ?_⟩
        show i ++ '\n' :: joinNl (i2 :: L2) = _
        rw [hp]
        simp

theorem split2Nl_mem {u b : Str} (hb : b ∈ split2Nl u) : ∀ c ∈ b, c ∈ u := by
  obtain ⟨p, q, hp⟩ := join2Nl_sub_of_mem hb
  rw [join2Nl_split2Nl] at hp
  intro c hc
  rw [hp]
  simp [hc]

theorem split2Nl_hasSub {u b p : Str} (hb : b ∈ split2Nl u) (h : hasSub p b = true) :
    hasSub p u = true := by
  obtain ⟨a, q, ha⟩ := join2Nl_sub_of_mem hb
  rw [join2Nl_split2Nl] at ha
  rw [ha]
  have := hasSub_of_sub a q h
  rwa [List.append_assoc] at this

theorem hasSub_cons_none {p : Str} {c : Char} {cs : Str} (h : hasSub p (c :: cs) = false) :
    isPre p (c :: cs) = false ∧ hasSub p cs = false := by
  simp only [hasSub, Bool.or_eq_false_iff] at h
  exact h

theorem split2Nl_append_sep : ∀ {a : Str} (b : Str),
    hasSub (str "\n\n") (a ++ ['\n']) = false →
    split2Nl (a ++ '\n' :: '\n' :: b) = a :: split2Nl b := by
  intro a
  induction a with
  | nil =>
    intro b _
    exact split2Nl_2nl b
  | cons c cs ih =>
    intro b h
    obtain ⟨hp1, h1⟩ := hasSub_cons_none (by simpa using h)
    have hpre : isPre (str "\n\n") (c :: (cs ++ '\n' :: '\n' :: b)) = false := by
      cases cs with
      | nil =>
        simp only [List.nil_append] at hp1 ⊢
        simp only [str, isPre] at hp1 ⊢
        simpa using hp1
      | cons e cs' =>
        simp only [List.cons_append] at hp1 ⊢
        simp only [str, isPre] at hp1 ⊢
        simpa using hp1
    rw [List.cons_append, split2Nl_other hpre, ih b h1]

theorem split2Nl_single : ∀ {a : Str}, hasSub (str "\n\n") a = false → split2Nl a = [a] := by
  intro a
  induction a with
  | nil => intro _; rfl
  | cons c cs ih =>
    intro h
    obtain ⟨hp, h1⟩ := hasSub_cons_none h
    rw [split2Nl_other hp, ih h1]

theorem split2Nl_join2Nl : ∀ {L : List Str}, L ≠ [] →
    (∀ i ∈ L, hasSub (str "\n\n") (i ++ ['\n']) = false) →
    split2Nl (join2Nl L) = L := by
  intro L
  induction L with
  | nil => intro h _; exact absurd rfl h
  | cons i L' ih =>
    intro _ h
    cases L' with
    | nil =>
      show split2Nl i = [i]
      refine split2Nl_single ?_
      cases hs : hasSub (str "\n\n") i with
      | false => rfl
      | true =>
        have := hasSub_append_left ['\n'] hs
        rw [h i (List.mem_cons_self i [])] at this
        exact absurd this (by simp)
    | cons i2 L2 =>
      show split2Nl (i ++ '\n' :: '\n' :: join2Nl (i2 :: L2)) = i :: i2 :: L2
      rw [split2Nl_append_sep (join2Nl (i2 :: L2)) (h i (List.mem_cons_self i (i2 :: L2)))]
      rw [ih (by simp) (fun j hj => h j (List.mem_cons_of_mem i hj))]

/-!
## C9 kit, part 3: scanner identity lemmas
-/

theorem scanG_id (tp : Str → Option (Str × Str)) : ∀ (f : Nat) (s : Str),
    (∀ u, (∃ a, a ++ u = s) → tp u = none) → scanG tp f s = s := by
  intro f
  induction f with
  | zero => intro s _; rfl
  | succ f ih =>
    intro s hs
    cases s with
    | nil => rfl
    | cons c cs =>
      have h0 : tp (c :: cs) = none := hs (c :: cs) ⟨[], rfl⟩
      show (match tp (c :: cs) with
        | some (rep, rem) => rep ++ scanG tp f rem
        | none => c :: scanG tp f cs) = c :: cs
      rw [h0]
      have : scanG tp f cs = cs := by
        refine ih cs ?_
        intro u hu
        obtain ⟨a, ha⟩ := hu
        exact hs u ⟨c :: a, by rw [← ha]; rfl⟩
      rw [this]

theorem breakNl_none : ∀ {s a : Str}, breakNl s = (a, none) → a = s := by
  intro s
  induction s with
  | nil => intro a h; injection h with h1 _; exact h1.symm
  | cons c cs ih =>
    intro a h
    by_cases hc : c = '\n'
    · subst hc
      simp only [breakNl, if_pos rfl] at h
      injection h with _ h2
      simp at h2
    · simp only [breakNl, if_neg hc] at h
      cases hb : breakNl cs with
      | mk a2 r2 =>
        rw [hb] at h
        dsimp only at h
        injection h with h1 h2
        subst h2
        rw [← h1, ih hb]

theorem breakNl_some : ∀ {s a r : Str}, breakNl s = (a, some r) → a ++ '\n' :: r = s := by
  intro s
  induction s with
  | nil => intro a r h; injection h with _ h2; simp at h2
  | cons c cs ih =>
    intro a r h
    by_cases hc : c = '\n'
    · subst hc
      simp only [breakNl, if_pos rfl] at h
      injection h with h1 h2
      injection h2 with h2
      rw [← h1, ← h2]
      rfl
    · simp only [breakNl, if_neg hc] at h
      cases hb : breakNl cs with
      | mk a2 r2 =>
        rw [hb] at h
        dsimp only at h
        injection h with h1 h2
        subst h2
        rw [← h1, List.cons_append, ih hb]

theorem scanLinesG_id (tp : Str → Option (Str × Str)) : ∀ (f : Nat) (s : Str),
    (∀ u, (u = s ∨ ∃ a, a ++ '\n' :: u = s) → tp u = none) → scanLinesG tp f s = s := by
  intro f
  induction f with
  | zero => intro s _; rfl
  | succ f ih =>
    intro s hs
    have h0 : tp s = none := hs s (Or.inl rfl)
    show (match tp s with
      | some (rep, rem) => _
      | none =>
        match breakNl s with
        | (pre, none) => pre
        | (pre, some rest) => pre ++ '\n' :: scanLinesG tp f rest) = s
    rw [h0]
    cases hb : breakNl s with
    | mk pre orest =>
      cases orest with
      | none =>
        exact breakNl_none hb
      | some rest =>
        have hrec : scanLinesG tp f rest = rest := by
          refine ih rest ?_
          intro u hu
          rcases hu with rfl | ⟨a, ha⟩
          · exact hs u (Or.inr ⟨pre, breakNl_some hb⟩)
          · refine hs u (Or.inr ⟨pre ++ '\n' :: a, ?_⟩)
            rw [← breakNl_some hb, ← ha]
            simp
        show pre ++ '\n' :: scanLinesG tp f rest = s
        rw [hrec, breakNl_some hb]

theorem tryNN_2nl (r : Str) :
    tryNN ('\n' :: '\n' :: r) = some (str "\n\n", r.dropWhile (· = '\n')) := rfl

theorem scanNN_id : ∀ (f : Nat) (s : Str), hasSub (str "\n\n\n") s = false →
    scanG tryNN f s = s := by
  intro f
  induction f with
  | zero => intro s _; rfl
  | succ f ih =>
    intro s hs
    rcases s with _ | ⟨c, _ | ⟨d, cs⟩⟩
    · rfl
    · show (match tryNN [c] with
        | some (rep, rem) => rep ++ scanG tryNN f rem
        | none => c :: scanG tryNN f []) = [c]
      have : tryNN [c] = none := by
        unfold tryNN
        split
        · rename_i heq
          exact absurd heq (by simp)
        · rfl
      rw [this, ih [] rfl]
    · by_cases h2 : c = '\n' ∧ d = '\n'
      · obtain ⟨rfl, rfl⟩ := h2
        show (match tryNN ('\n' :: '\n' :: cs) with
          | some (rep, rem) => rep ++ scanG tryNN f rem
          | none => '\n' :: scanG tryNN f ('\n' :: cs)) = '\n' :: '\n' :: cs
        rw [tryNN_2nl]
        have hcs : cs.dropWhile (· = '\n') = cs := by
          cases cs with
          | nil => rfl
          | cons e cs' =>
            have he : ¬ e = '\n' := by
              intro he
              subst he
              obtain ⟨hp, _⟩ := hasSub_cons_none hs
              simp [isPre, str] at hp
            simp [List.dropWhile, he]
        rw [hcs]
        have hs' : hasSub (str "\n\n\n") cs = false :=
          (hasSub_cons_none (hasSub_cons_none hs).2).2
        show str "\n\n" ++ scanG tryNN f cs = '\n' :: '\n' :: cs
        rw [ih cs hs']
        rfl
      · have hnn : tryNN (c :: d :: cs) = none := by
          unfold tryNN
          split
          · rename_i heq
            injection heq with e1 e2
            injection e2 with e2 _
            exact absurd ⟨e1, e2⟩ h2
          · rfl
        show (match tryNN (c :: d :: cs) with
          | some (rep, rem) => rep ++ scanG tryNN f rem
          | none => c :: scanG tryNN f (d :: cs)) = c :: d :: cs
        rw [hnn]
        have hs' : hasSub (str "\n\n\n") (d :: cs) = false := (hasSub_cons_none hs).2
        rw [ih (d :: cs) hs']

theorem lineStart_drop : ∀ {a u s : Str}, a ++ '\n' :: u = s →
    ∃ k, k < (splitNl s).length ∧ joinNl ((splitNl s).drop k) = u := by
  intro a
  induction a with
  | nil =>
    intro u s h
    rw [List.nil_append] at h
    subst h
    refine ⟨1, ?_, ?_⟩
    · show 1 < (splitNl ('\n' :: u)).length
      simp only [splitNl, if_pos rfl, List.length_cons]
      cases hsp : splitNl u with
      | nil => exact absurd hsp (splitNl_ne_nil u)
      | cons l ls => simp [hsp]
    · show joinNl ((splitNl ('\n' :: u)).drop 1) = u
      simp only [splitNl, if_pos rfl, List.drop_succ_cons, List.drop_zero]
      exact joinNl_splitNl u
  | cons c a' ih =>
    intro u s h
    rw [List.cons_append] at h
    subst h
    by_cases hc : c = '\n'
    · subst hc
      obtain ⟨k, hk, hj⟩ := ih (u := u) (s := a' ++ '\n' :: u) rfl
      refine ⟨k + 1, ?_, ?_⟩
      · show k + 1 < (splitNl ('\n' :: (a' ++ '\n' :: u))).length
        simp only [splitNl, if_pos rfl, if_true, List.length_cons]
        omega
      · show joinNl ((splitNl ('\n' :: (a' ++ '\n' :: u))).drop (k + 1)) = u
        simp only [splitNl, if_pos rfl, List.drop_succ_cons]
        exact hj
    · obtain ⟨k, hk, hj⟩ := ih (u := u) (s := a' ++ '\n' :: u) rfl
      cases hsp : splitNl (a' ++ '\n' :: u) with
      | nil => exact absurd hsp (splitNl_ne_nil _)
      | cons l ls =>
        rw [hsp] at hk hj
        cases k with
        | zero =>
          exfalso
          rw [List.drop_zero, ← hsp, joinNl_splitNl] at hj
          have hlen : (a' ++ '\n' :: u).length = u.length := by rw [hj]
          simp only [List.length_append, List.length_cons] at hlen
          omega
        | succ k' =>
          refine ⟨k' + 1, ?_, ?_⟩
          · show k' + 1 < (splitNl (c :: (a' ++ '\n' :: u))).length
            simp only [splitNl, if_neg hc, hsp, List.length_cons]
            simp only [List.length_cons] at hk
            omega
          · show joinNl ((splitNl (c :: (a' ++ '\n' :: u))).drop (k' + 1)) = u
            simp only [splitNl, if_neg hc, hsp, List.drop_succ_cons]
            rw [List.drop_succ_cons] at hj
            exact hj

theorem filterMap_congr_mem {f g : Str → Option Str} : ∀ {l : List Str},
    (∀ x ∈ l, f x = g x) → l.filterMap f = l.filterMap g := by
  intro l
  induction l with
  | nil => intro _; rfl
  | cons x xs ih =>
    intro h
    have hx := h x (List.mem_cons_self x xs)
    have ih' := ih (fun y hy => h y (List.mem_cons_of_mem x hy))
    cases hfx : f x with
    | none => rw [List.filterMap_cons_none hfx, List.filterMap_cons_none (hx ▸ hfx), ih']
    | some b => rw [List.filterMap_cons_some hfx, List.filterMap_cons_some (hx ▸ hfx), ih']

theorem filterMap_id_of_some {f : Str → Option Str} : ∀ {l : List Str},
    (∀ x ∈ l, f x = some x) → l.filterMap f = l := by
  intro l
  induction l with
  | nil => intro _; rfl
  | cons x xs ih =>
    intro h
    rw [List.filterMap_cons_some (h x (List.mem_cons_self x xs)),
      ih (fun y hy => h y (List.mem_cons_of_mem x hy))]

/-!
## C9 kit, part 4: when the pattern matchers fail
-/

theorem tryCB1_none {u : Str} (h : '`' ∉ u) : tryCB1 u = none := by
  cases u with
  | nil => rfl
  | cons c cs =>
    have hc : c ≠ '`' := fun he => h (he ▸ List.mem_cons_self c cs)
    rw [tryCB1.eq_def]
    split
    · rename_i r heq
      injection heq with h1 _
      exact absurd h1 hc
    · rfl

theorem tryCB2_none {u : Str} (h : '`' ∉ u) : tryCB2 u = none := by
  cases u with
  | nil => rfl
  | cons c cs =>
    have hc : c ≠ '`' := fun he => h (he ▸ List.mem_cons_self c cs)
    rw [tryCB2.eq_def]
    split
    · rename_i r heq
      injection heq with h1 _
      exact absurd h1 hc
    · rfl

theorem tryInline_none {u : Str} (h : '`' ∉ u) : tryInline u = none := by
  cases u with
  | nil => rfl
  | cons c cs =>
    have hc : c ≠ '`' := fun he => h (he ▸ List.mem_cons_self c cs)
    rw [tryInline.eq_def]
    split
    · rename_i r heq
      injection heq with h1 _
      exact absurd h1 hc
    · rfl

theorem tryHdr_nil : tryHdr [] = none := by decide

theorem tryHdr_none_head {c : Char} (cs : Str) (h : c ≠ '#') : tryHdr (c :: cs) = none := by
  have ht : (c :: cs).takeWhile (· = '#') = [] := by
    simp [List.takeWhile, h]
  simp [tryHdr, ht]

theorem tryQuote_nil : tryQuote [] = none := by decide

theorem tryQuote_none_head {c : Char} (cs : Str) (h : c ≠ '>') : tryQuote (c :: cs) = none := by
  rw [tryQuote.eq_def]
  split
  · rename_i r heq
    injection heq with h1 _
    exact absurd h1 h
  · rfl

theorem tryDouble_none {m : Char} (op cl : Str) {u : Str} (h : m ∉ u) :
    tryDouble m op cl u = none := by
  rcases u with _ | ⟨c, _ | ⟨d, r⟩⟩
  · rfl
  · rfl
  · have hc : ¬(c = m ∧ d = m) := fun hcd => h (hcd.1 ▸ List.mem_cons_self c (d :: r))
    simp only [tryDouble]
    rw [if_neg hc]

theorem trySingle_none {m : Char} (op cl : Str) {u : Str} (h : m ∉ u) :
    trySingle m op cl u = none := by
  rcases u with _ | ⟨c, r⟩
  · rfl
  · have hc : ¬ c = m := fun hcm => h (hcm ▸ List.mem_cons_self c r)
    simp only [trySingle]
    rw [if_neg hc]

theorem tryL1_none {u : Str} (h : '[' ∉ u) : tryL1 u = none := by
  cases u with
  | nil => rfl
  | cons c cs =>
    have hc : c ≠ '[' := fun he => h (he ▸ List.mem_cons_self c cs)
    rw [tryL1.eq_def]
    split
    · rename_i r heq
      injection heq with h1 _
      exact absurd h1 hc
    · rfl

theorem tryL2_none {u : Str} (h : '[' ∉ u) : tryL2 u = none := by
  cases u with
  | nil => rfl
  | cons c cs =>
    have hc : c ≠ '[' := fun he => h (he ▸ List.mem_cons_self c cs)
    rw [tryL2.eq_def]
    split
    · rename_i r heq
      injection heq with h1 _
      exact absurd h1 hc
    · rfl

theorem tryI1_none {u : Str} (h : '[' ∉ u) : tryI1 u = none := by
  rw [tryI1.eq_def]
  split
  · rename_i r
    exact absurd (List.mem_cons_of_mem '!' (List.mem_cons_self '[' r)) h
  · rfl

theorem tryI2_none {u : Str} (h : '[' ∉ u) : tryI2 u = none := by
  rw [tryI2.eq_def]
  split
  · rename_i r
    exact absurd (List.mem_cons_of_mem '!' (List.mem_cons_self '[' r)) h
  · rfl

theorem tryL3_none {u : Str} (h : hasSub (str "http") u = false) : tryL3 u = none := by
  have h1 : isPre (str "https://") u = false := by
    cases hp : isPre (str "https://") u with
    | false => rfl
    | true =>
      have h4 : isPre (str "http") u = true :=
        isPre_of_append_pat (show isPre (str "http" ++ str "s://") u = true from hp)
      rw [hasSub_of_isPre h4] at h
      exact absurd h (by simp)
  have h2 : isPre (str "http://") u = false := by
    cases hp : isPre (str "http://") u with
    | false => rfl
    | true =>
      have h4 : isPre (str "http") u = true :=
        isPre_of_append_pat (show isPre (str "http" ++ str "://") u = true from hp)
      rw [hasSub_of_isPre h4] at h
      exact absurd h (by simp)
  simp [tryL3, h1, h2]

theorem tryLB_none {u : Str} (h : isPre (str "  \n") u = false) : tryLB u = none := by
  rw [tryLB.eq_def]
  split
  · rename_i r
    simp [isPre, str] at h
  · rfl

theorem liTryAt_sub {u : Str} {x : Nat × Str} (h : liTryAt u = some x) :
    isPre (str "<l") u = true := by
  cases hp : isPre (str "<li data-level=\"") u with
  | true => exact isPre_of_append_pat (show isPre (str "<l" ++ str "i data-level=\"") u = true from hp)
  | false =>
    unfold liTryAt at h
    rw [hp] at h
    simp at h

theorem liMatch_sub : ∀ {l : Str} {x : Nat × Str}, liMatch l = some x →
    hasSub (str "<l") l = true := by
  intro l
  induction l with
  | nil => intro x h; exact absurd h (by simp [liMatch])
  | cons c cs ih =>
    intro x h
    show (isPre (str "<l") (c :: cs) || hasSub (str "<l") cs) = true
    cases ht : liTryAt (c :: cs) with
    | some y =>
      rw [liTryAt_sub ht]
      rfl
    | none =>
      simp only [liMatch, ht] at h
      rw [ih h]
      simp

theorem wrapGo_pass : ∀ (lines : List Str), (∀ l ∈ lines, liMatch l = none) →
    wrapGo lines [] = lines := by
  intro lines
  induction lines with
  | nil => intro _; rfl
  | cons l ls ih =>
    intro h
    show (match liMatch l with
      | some (lv, content) =>
        let (out, st') := wrapStep [] lv (lineIsOrdered l) content
        out ++ wrapGo ls st'
      | none => (closeAll [] ++ [l]) ++ wrapGo ls []) = l :: ls
    rw [h l (List.mem_cons_self l ls)]
    show (([] : List Str) ++ [l]) ++ wrapGo ls [] = l :: ls
    rw [ih (fun j hj => h j (List.mem_cons_of_mem l hj))]
    rfl

theorem afterHead_nil : afterHead [] = none := by decide

theorem afterHead_none_nows {c : Char} (r : Str) (h : isWsChar c = false) :
    afterHead (c :: r) = none := by
  have ht : (c :: r).takeWhile isWsChar = [] := by
    simp [List.takeWhile, h]
  simp [afterHead, ht]

theorem afterHead_some_ws {e : Char} {r : Str} (he : isWsChar e = true) {q : Char} {q' : Str}
    (hr : (e :: r).dropWhile isWsChar = q :: q') :
    ∃ x, afterHead (e :: r) = some x := by
  have ht : (e :: r).takeWhile isWsChar = e :: r.takeWhile isWsChar := by
    simp [List.takeWhile, he]
  refine ⟨((q :: q').takeWhile (· ≠ '\n'), (q :: q').dropWhile (· ≠ '\n')), ?_⟩
  simp only [afterHead, ht, hr]
  rfl

theorem tryUl_none_nil {u : Str} (h : u.dropWhile isWsChar = []) : tryUl u = none := by
  simp [tryUl, h]

theorem tryUl_not_dash {u : Str} {c : Char} {t : Str} (hd : u.dropWhile isWsChar = c :: t)
    (hc : c ≠ '-') : tryUl u = none := by
  unfold tryUl
  rw [hd]
  split
  · rename_i r2 heq
    injection heq with h1 _
    exact absurd h1 hc
  · rfl

theorem tryUl_dash_none {u : Str} {t : Str} (hd : u.dropWhile isWsChar = '-' :: t)
    (ha : afterHead t = none) : tryUl u = none := by
  unfold tryUl
  rw [hd]
  split
  · rename_i r2 heq
    injection heq with _ h2
    rw [← h2, ha]
  · rfl

theorem tryUl_dash_some {u : Str} {t : Str} {p : Str × Str}
    (hd : u.dropWhile isWsChar = '-' :: t) (ha : afterHead t = some p) :
    ∃ x, tryUl u = some x := by
  unfold tryUl
  rw [hd]
  split
  · rename_i r2 heq
    injection heq with _ h2
    rw [← h2, ha]
    exact ⟨_, rfl⟩
  · rename_i hne
    exact absurd rfl (hne t)

theorem tryOl_none_nil {u : Str} (h : u.dropWhile isWsChar = []) : tryOl u = none := by
  simp [tryOl, h]

theorem tryOl_nodigit {u : Str} {c : Char} {t : Str} (hd : u.dropWhile isWsChar = c :: t)
    (hc : isDigitChar c = false) : tryOl u = none := by
  have ht : (c :: t).takeWhile isDigitChar = [] := by
    simp [List.takeWhile, hc]
  simp [tryOl, hd, ht]

theorem tryOl_end {u : Str} {d0 : Char} {ds' : Str}
    (hds : (u.dropWhile isWsChar).takeWhile isDigitChar = d0 :: ds')
    (hdrop : (u.dropWhile isWsChar).drop (d0 :: ds').length = []) : tryOl u = none := by
  simp only [tryOl, hds, hdrop]
  simp

theorem tryOl_nodot {u : Str} {d0 c1 : Char} {ds' t : Str}
    (hds : (u.dropWhile isWsChar).takeWhile isDigitChar = d0 :: ds')
    (hdrop : (u.dropWhile isWsChar).drop (d0 :: ds').length = c1 :: t)
    (hc : c1 ≠ '.') : tryOl u = none := by
  simp only [tryOl, hds, hdrop, List.isEmpty_cons, Bool.false_eq_true, if_false]
  split
  · rename_i r2 heq
    injection heq with h1 _
    exact absurd h1 hc
  · rfl

theorem tryOl_dot_none {u : Str} {d0 : Char} {ds' t : Str}
    (hds : (u.dropWhile isWsChar).takeWhile isDigitChar = d0 :: ds')
    (hdrop : (u.dropWhile isWsChar).drop (d0 :: ds').length = '.' :: t)
    (ha : afterHead t = none) : tryOl u = none := by
  simp only [tryOl, hds, hdrop, List.isEmpty_cons, Bool.false_eq_true, if_false]
  split
  · rfl
  · rename_i x content rem heq
    rw [ha] at heq
    exact absurd heq (by simp)

theorem tryOl_dot_some {u : Str} {d0 : Char} {ds' t : Str} {p : Str × Str}
    (hds : (u.dropWhile isWsChar).takeWhile isDigitChar = d0 :: ds')
    (hdrop : (u.dropWhile isWsChar).drop (d0 :: ds').length = '.' :: t)
    (ha : afterHead t = some p) : ∃ x, tryOl u = some x := by
  simp only [tryOl, hds, hdrop, List.isEmpty_cons, Bool.false_eq_true, if_false]
  split
  · rename_i heq
    rw [ha] at heq
    exact absurd heq (by simp)
  · exact ⟨_, rfl⟩

/-!
## C9 kit, part 5: list-marker matching is unaffected by replacing the tail
after a block line with the emitted `</p>` tag
-/

theorem concat_last_eq {A B : Str} {x y : Char} (h : A ++ [x] = B ++ [y]) : x = y := by
  have h2 := congrArg List.reverse h
  simp only [List.reverse_append, List.reverse_cons, List.reverse_nil, List.nil_append,
    List.singleton_append, List.cons.injEq] at h2
  exact h2.1

theorem exists_concat {l : Str} (h : l ≠ []) : ∃ m x, l = m ++ [x] := by
  rcases List.eq_nil_or_concat l with h2 | ⟨m, x, h2⟩
  · exact absurd h2 h
  · exact ⟨m, x, by rw [h2, List.concat_eq_append]⟩

theorem tail_last {pre tail w1 : Str} {d : Char} (hsplit : pre ++ tail = w1 ++ [d])
    (htail : tail ≠ []) : ∃ t3, tail = t3 ++ [d] := by
  obtain ⟨m, x, hx⟩ := exists_concat htail
  subst hx
  rw [← List.append_assoc] at hsplit
  exact ⟨m, by rw [concat_last_eq hsplit]⟩

theorem drop_takeWhile_length {p : Char → Bool} : ∀ (l : Str),
    l.drop (l.takeWhile p).length = l.dropWhile p := by
  intro l
  induction l with
  | nil => rfl
  | cons c cs ih =>
    cases hpc : p c with
    | true =>
      simp only [List.takeWhile, hpc, List.length_cons, List.drop_succ_cons, List.dropWhile]
      exact ih
    | false =>
      simp only [List.takeWhile, hpc, List.length_nil, List.drop_zero, List.dropWhile]

theorem tryUl_line {w E : Str} {d : Char} {w1 : Str} (hw : w = w1 ++ [d])
    (hd : isWsChar d = false) (hE : tryUl (w ++ E) = none) (rest : Str) :
    tryUl (w ++ (str "</p>" ++ rest)) = none := by
  cases hdrop : w.dropWhile isWsChar with
  | nil =>
    have hall := dropWhile_all hdrop d (by rw [hw]; simp)
    rw [hall] at hd
    exact absurd hd (by simp)
  | cons c w' =>
    by_cases hcd : c = '-'
    · subst hcd
      cases w' with
      | nil =>
        refine tryUl_dash_none (dropWhile_append_ne_nil _ hdrop) ?_
        show afterHead ([] ++ (str "</p>" ++ rest)) = none
        rw [List.nil_append, show str "</p>" ++ rest = '<' :: (str "/p>" ++ rest) from rfl]
        exact afterHead_none_nows _ (by decide)
      | cons e w'' =>
        cases hew : isWsChar e with
        | false =>
          refine tryUl_dash_none (dropWhile_append_ne_nil _ hdrop) ?_
          show afterHead ((e :: w'') ++ (str "</p>" ++ rest)) = none
          rw [List.cons_append]
          exact afterHead_none_nows _ hew
        | true =>
          exfalso
          have hsplit : w.takeWhile isWsChar ++ ('-' :: e :: w'') = w1 ++ [d] := by
            rw [← hdrop, List.takeWhile_append_dropWhile, hw]
          obtain ⟨t3, ht3⟩ := tail_last hsplit (by simp)
          cases t3 with
          | nil => simp at ht3
          | cons x t4 =>
            rw [List.cons_append] at ht3
            injection ht3 with _ ht4
            have hne : (e :: w'').dropWhile isWsChar ≠ [] := by
              intro hnil
              have hgot := dropWhile_all hnil d (by rw [ht4]; simp)
              rw [hgot] at hd
              exact absurd hd (by simp)
            cases hq : (e :: w'').dropWhile isWsChar with
            | nil => exact hne hq
            | cons q q' =>
              have hqE : ((e :: w'') ++ E).dropWhile isWsChar = q :: (q' ++ E) :=
                dropWhile_append_ne_nil E hq
              rw [List.cons_append] at hqE
              obtain ⟨x2, hx2⟩ := afterHead_some_ws hew hqE
              have hdE : (w ++ E).dropWhile isWsChar = '-' :: ((e :: w'') ++ E) :=
                dropWhile_append_ne_nil E hdrop
              obtain ⟨y, hy⟩ := tryUl_dash_some hdE (by rw [List.cons_append]; exact hx2)
              rw [hy] at hE
              exact absurd hE (by simp)
    · exact tryUl_not_dash (dropWhile_append_ne_nil _ hdrop) hcd

theorem tryOl_line {w E : Str} {d : Char} {w1 : Str} (hw : w = w1 ++ [d])
    (hd : isWsChar d = false) (hE : tryOl (w ++ E) = none) (rest : Str) :
    tryOl (w ++ (str "</p>" ++ rest)) = none := by
  cases hdrop : w.dropWhile isWsChar with
  | nil =>
    have hall := dropWhile_all hdrop d (by rw [hw]; simp)
    rw [hall] at hd
    exact absurd hd (by simp)
  | cons c w' =>
    cases hdig : isDigitChar c with
    | false => exact tryOl_nodigit (dropWhile_append_ne_nil _ hdrop) hdig
    | true =>
      have hdsX : ∀ X : Str, (w ++ X).dropWhile isWsChar = c :: (w' ++ X) :=
        fun X => dropWhile_append_ne_nil X hdrop
      cases hrest : (c :: w').dropWhile isDigitChar with
      | nil =>
        have hall : ∀ x ∈ c :: w', isDigitChar x = true := dropWhile_all hrest
        have hXtw : (str "</p>" ++ rest).takeWhile isDigitChar = [] := by
          rw [show str "</p>" ++ rest = '<' :: (str "/p>" ++ rest) from rfl]
          simp [List.takeWhile, show isDigitChar '<' = false from by decide]
        have hA : ((w ++ (str "</p>" ++ rest)).dropWhile isWsChar).takeWhile isDigitChar =
            c :: w' := by
          rw [hdsX, ← List.cons_append, (takeWhile_append_all _ hall).1, hXtw, List.append_nil]
        have hB : ((w ++ (str "</p>" ++ rest)).dropWhile isWsChar).drop (c :: w').length =
            '<' :: (str "/p>" ++ rest) := by
          rw [hdsX, ← List.cons_append, List.drop_left]
          rfl
        exact tryOl_nodot hA hB (by decide)
      | cons c1 w2 =>
        have hc1 : isDigitChar c1 = false := dropWhile_head_not hrest
        have htwX : ∀ X : Str, (c :: (w' ++ X)).takeWhile isDigitChar =
            (c :: w').takeWhile isDigitChar := by
          intro X
          rw [← List.cons_append]
          exact takeWhile_append_stop X hrest
        have hdropX : ∀ X : Str, (c :: (w' ++ X)).drop
            ((c :: w').takeWhile isDigitChar).length = c1 :: (w2 ++ X) := by
          intro X
          rw [← List.cons_append, ← takeWhile_append_stop X hrest, drop_takeWhile_length]
          exact dropWhile_append_ne_nil X hrest
        cases hds0 : (c :: w').takeWhile isDigitChar with
        | nil =>
          have h5 : (c :: w').takeWhile isDigitChar = c :: w'.takeWhile isDigitChar := by
            simp [List.takeWhile, hdig]
          rw [hds0] at h5
          exact absurd h5.symm (by simp)
        | cons d0 ds' =>
          have hA : ∀ X : Str, ((w ++ X).dropWhile isWsChar).takeWhile isDigitChar =
              d0 :: ds' := by
            intro X
            rw [hdsX, htwX]
            exact hds0
          have hB : ∀ X : Str, ((w ++ X).dropWhile isWsChar).drop (d0 :: ds').length =
              c1 :: (w2 ++ X) := by
            intro X
            rw [hdsX, ← hds0, hdropX]
          by_cases hdot : c1 = '.'
          · subst hdot
            cases w2 with
            | nil =>
              refine tryOl_dot_none (hA _) (hB _) ?_
              show afterHead ([] ++ (str "</p>" ++ rest)) = none
              rw [List.nil_append,
                show str "</p>" ++ rest = '<' :: (str "/p>" ++ rest) from rfl]
              exact afterHead_none_nows _ (by decide)
            | cons e w3 =>
              cases hew : isWsChar e with
              | false =>
                refine tryOl_dot_none (hA _) (hB _) ?_
                show afterHead ((e :: w3) ++ (str "</p>" ++ rest)) = none
                rw [List.cons_append]
                exact afterHead_none_nows _ hew
              | true =>
                exfalso
                have hsplit : (w.takeWhile isWsChar ++ (c :: w').takeWhile isDigitChar) ++
                    ('.' :: e :: w3) = w1 ++ [d] := by
                  rw [List.append_assoc, ← hrest, List.takeWhile_append_dropWhile,
                    ← hdrop, List.takeWhile_append_dropWhile, hw]
                obtain ⟨t3, ht3⟩ := tail_last hsplit (by simp)
                cases t3 with
                | nil => simp at ht3
                | cons x t4 =>
                  rw [List.cons_append] at ht3
                  injection ht3 with _ ht4
                  have hne : (e :: w3).dropWhile isWsChar ≠ [] := by
                    intro hnil
                    have hgot := dropWhile_all hnil d (by rw [ht4]; simp)
                    rw [hgot] at hd
                    exact absurd hd (by simp)
                  cases hq : (e :: w3).dropWhile isWsChar with
                  | nil => exact hne hq
                  | cons q q' =>
                    have hqE : ((e :: w3) ++ E).dropWhile isWsChar = q :: (q' ++ E) :=
                      dropWhile_append_ne_nil E hq
                    rw [List.cons_append] at hqE
                    obtain ⟨x2, hx2⟩ := afterHead_some_ws hew hqE
                    have hBE : ((w ++ E).dropWhile isWsChar).drop (d0 :: ds').length =
                        '.' :: (e :: (w3 ++ E)) := by
                      rw [hB]
                      simp
                    obtain ⟨y, hy⟩ := tryOl_dot_some (hA E) hBE hx2
                    rw [hy] at hE
                    exact absurd hE (by simp)
          · exact tryOl_nodot (hA _) (hB _) hdot

/-!
## C9 kit, part 6: the no-markdown-syntax predicate and phase-A identities

`noMarkers s` says the input carries none of the markdown markers the parser
reacts to: no backtick (code), hash (heading), `>` (quote), `<` (raw HTML),
bracket (link/image), `*`/`_`/`~` (emphasis), no `http` URL run, no two-space
hard-break before a newline, no run of three newlines (paragraph
normalisation), and no line on which the unordered- or ordered-list item
pattern matches.  The list-marker condition quantifies over the line starts
of `s`, exactly the positions where the `^`-anchored patterns are tried.
-/

def bannedChar (c : Char) : Bool :=
  c == '`' || c == '#' || c == '>' || c == '<' || c == '[' || c == '*' || c == '_' || c == '~'

def lineStarts (s : Str) : List Str :=
  (List.range (splitNl s).length).map (fun k => joinNl ((splitNl s).drop k))

def noMarkers (s : Str) : Bool :=
  s.all (fun c => !bannedChar c) &&
  !hasSub (str "http") s &&
  !hasSub (str "  \n") s &&
  !hasSub (str "\n\n\n") s &&
  (lineStarts s).all (fun u => (tryUl u).isNone && (tryOl u).isNone)

/-- The list of paragraph items the first parse produces. -/
def mkItems (u : Str) : List Str :=
  (split2Nl u).filterMap (fun b =>
    if (trimWs b).isEmpty then none else some (str "<p>" ++ (trimWs b ++ str "</p>")))

theorem noMarkers_parts {s : Str} (h : noMarkers s = true) :
    (∀ c ∈ s, bannedChar c = false) ∧ hasSub (str "http") s = false ∧
    hasSub (str "  \n") s = false ∧ hasSub (str "\n\n\n") s = false ∧
    (∀ u, (u = s ∨ ∃ a : Str, a ++ '\n' :: u = s) →
      tryUl u = none ∧ tryOl u = none) := by
  unfold noMarkers at h
  simp only [Bool.and_eq_true, List.all_eq_true, Bool.not_eq_true'] at h
  obtain ⟨⟨⟨⟨h1, h2⟩, h3⟩, h4⟩, h5⟩ := h
  refine ⟨h1, h2, h3, h4, ?_⟩
  have key : ∀ u (k : Nat), k < (splitNl s).length → u = joinNl ((splitNl s).drop k) →
      tryUl u = none ∧ tryOl u = none := by
    intro u k hk hukey
    have hmem : u ∈ lineStarts s := by
      unfold lineStarts
      rw [List.mem_map]
      exact ⟨k, List.mem_range.mpr hk, hukey.symm⟩
    have h6 := h5 u hmem
    simp only [Bool.and_eq_true, Option.isNone_iff_eq_none] at h6
    exact h6
  intro u hu
  rcases hu with rfl | ⟨a, ha⟩
  · refine key u 0 ?_ ?_
    · cases hsp : splitNl u with
      | nil => exact absurd hsp (splitNl_ne_nil u)
      | cons l ls => simp
    · rw [List.drop_zero, joinNl_splitNl]
  · obtain ⟨k, hk, hj⟩ := lineStart_drop ha
    exact key u k hk hj.symm

theorem not_mem_of_banned {s : Str} (hc : ∀ c ∈ s, bannedChar c = false) {x : Char}
    (hx : bannedChar x = true) : x ∉ s := by
  intro hmem
  rw [hc x hmem] at hx
  exact absurd hx (by simp)

theorem mem_of_suffix {a u s : Str} (h : a ++ u = s) {x : Char} (hx : x ∈ u) : x ∈ s := by
  rw [← h]
  simp [hx]

theorem mem_of_linestart {a u s : Str} (h : a ++ '\n' :: u = s) {x : Char} (hx : x ∈ u) :
    x ∈ s := by
  rw [← h]
  simp [hx]

theorem parseCodeBlocks_id {t : Str} (h : '`' ∉ t) : parseCodeBlocks t = t := by
  unfold parseCodeBlocks
  have h1 : scanG tryCB1 (t.length + 1) t = t :=
    scanG_id _ _ _ (fun u hu => tryCB1_none (fun hm => by
      obtain ⟨a, ha⟩ := hu
      exact h (mem_of_suffix ha hm)))
  rw [h1]
  exact scanG_id _ _ _ (fun u hu => tryCB2_none (fun hm => by
    obtain ⟨a, ha⟩ := hu
    exact h (mem_of_suffix ha hm)))

theorem parseInlineCode_id {t : Str} (h : '`' ∉ t) : parseInlineCode t = t :=
  scanG_id _ _ _ (fun u hu => tryInline_none (fun hm => by
    obtain ⟨a, ha⟩ := hu
    exact h (mem_of_suffix ha hm)))

theorem parseHeaders_id {t : Str} (h : '#' ∉ t) : parseHeaders t = t := by
  refine scanLinesG_id _ _ _ ?_
  intro u hu
  cases u with
  | nil => exact tryHdr_nil
  | cons c cs =>
    refine tryHdr_none_head cs ?_
    intro hc
    subst hc
    rcases hu with rfl | ⟨a, ha⟩
    · exact h (List.mem_cons_self _ _)
    · exact h (mem_of_linestart ha (List.mem_cons_self _ _))

theorem parseBlockquotes_id {t : Str} (h : '>' ∉ t) : parseBlockquotes t = t := by
  refine scanLinesG_id _ _ _ ?_
  intro u hu
  cases u with
  | nil => exact tryQuote_nil
  | cons c cs =>
    refine tryQuote_none_head cs ?_
    intro hc
    subst hc
    rcases hu with rfl | ⟨a, ha⟩
    · exact h (List.mem_cons_self _ _)
    · exact h (mem_of_linestart ha (List.mem_cons_self _ _))

theorem wrapListItems_id {t : Str} (h : hasSub (str "<l") t = false) : wrapListItems t = t := by
  have hall : ∀ l ∈ splitNl t, liMatch l = none := by
    intro l hl
    cases hm : liMatch l with
    | none => rfl
    | some x =>
      exfalso
      have hsl := liMatch_sub hm
      obtain ⟨p, q, hpq⟩ := joinNl_sub_of_mem hl
      rw [joinNl_splitNl] at hpq
      have h2 : hasSub (str "<l") t = true := by
        rw [hpq]
        have h3 := hasSub_of_sub p q hsl
        rwa [List.append_assoc] at h3
      rw [h2] at h
      exact absurd h (by simp)
  unfold wrapListItems
  rw [wrapGo_pass _ hall, joinNl_splitNl]

theorem parseLists_id {t : Str}
    (hls : ∀ u, (u = t ∨ ∃ a : Str, a ++ '\n' :: u = t) → tryUl u = none ∧ tryOl u = none)
    (h : hasSub (str "<l") t = false) : parseLists t = t := by
  have h1 : ∀ f, scanLinesG tryUl f t = t :=
    fun f => scanLinesG_id tryUl f t (fun u hu => (hls u hu).1)
  have h2 : ∀ f, scanLinesG tryOl f t = t :=
    fun f => scanLinesG_id tryOl f t (fun u hu => (hls u hu).2)
  show wrapListItems (scanLinesG tryOl ((scanLinesG tryUl (t.length + 1) t).length + 1)
    (scanLinesG tryUl (t.length + 1) t)) = t
  rw [h1, h2]
  exact wrapListItems_id h

theorem hasSub_suffix_false {p t u : Str} (hp : hasSub p t = false) (hu : ∃ a : Str, a ++ u = t) :
    hasSub p u = false := by
  cases hs : hasSub p u with
  | false => rfl
  | true =>
    obtain ⟨a, ha⟩ := hu
    rw [← ha, hasSub_append_right a hs] at hp
    exact absurd hp (by simp)

theorem parseLinks_id {t : Str} (hb : '[' ∉ t) (hh : hasSub (str "http") t = false) :
    parseLinks t = t := by
  have h1 : ∀ f, scanG tryL1 f t = t :=
    fun f => scanG_id tryL1 f t (fun u hu => tryL1_none (fun hm => by
      obtain ⟨a, ha⟩ := hu
      exact hb (mem_of_suffix ha hm)))
  have h2 : ∀ f, scanG tryL2 f t = t :=
    fun f => scanG_id tryL2 f t (fun u hu => tryL2_none (fun hm => by
      obtain ⟨a, ha⟩ := hu
      exact hb (mem_of_suffix ha hm)))
  have h3 : ∀ f, scanG tryL3 f t = t :=
    fun f => scanG_id tryL3 f t (fun u hu => tryL3_none (hasSub_suffix_false hh hu))
  show scanG tryL3 ((scanG tryL2 ((scanG tryL1 (t.length + 1) t).length + 1)
    (scanG tryL1 (t.length + 1) t)).length + 1)
    (scanG tryL2 ((scanG tryL1 (t.length + 1) t).length + 1)
      (scanG tryL1 (t.length + 1) t)) = t
  rw [h1, h2, h3]

theorem parseImages_id {t : Str} (hb : '[' ∉ t) : parseImages t = t := by
  have h1 : ∀ f, scanG tryI1 f t = t :=
    fun f => scanG_id tryI1 f t (fun u hu => tryI1_none (fun hm => by
      obtain ⟨a, ha⟩ := hu
      exact hb (mem_of_suffix ha hm)))
  have h2 : ∀ f, scanG tryI2 f t = t :=
    fun f => scanG_id tryI2 f t (fun u hu => tryI2_none (fun hm => by
      obtain ⟨a, ha⟩ := hu
      exact hb (mem_of_suffix ha hm)))
  show scanG tryI2 ((scanG tryI1 (t.length + 1) t).length + 1)
    (scanG tryI1 (t.length + 1) t) = t
  rw [h1, h2]

theorem parseEmphasis_id {t : Str} (hst : '*' ∉ t) (hun : '_' ∉ t) (htl : '~' ∉ t) :
    parseEmphasis t = t := by
  have h1 : ∀ f, scanG (tryDouble '*' (str "<strong>") (str "</strong>")) f t = t :=
    fun f => scanG_id _ f t (fun u hu => tryDouble_none _ _ (fun hm => by
      obtain ⟨a, ha⟩ := hu
      exact hst (mem_of_suffix ha hm)))
  have h2 : ∀ f, scanG (tryDouble '_' (str "<strong>") (str "</strong>")) f t = t :=
    fun f => scanG_id _ f t (fun u hu => tryDouble_none _ _ (fun hm => by
      obtain ⟨a, ha⟩ := hu
      exact hun (mem_of_suffix ha hm)))
  have h3 : ∀ f, scanG (trySingle '*' (str "<em>") (str "</em>")) f t = t :=
    fun f => scanG_id _ f t (fun u hu => trySingle_none _ _ (fun hm => by
      obtain ⟨a, ha⟩ := hu
      exact hst (mem_of_suffix ha hm)))
  have h4 : ∀ f, scanG (trySingle '_' (str "<em>") (str "</em>")) f t = t :=
    fun f => scanG_id _ f t (fun u hu => trySingle_none _ _ (fun hm => by
      obtain ⟨a, ha⟩ := hu
      exact hun (mem_of_suffix ha hm)))
  have h5 : ∀ f, scanG (tryDouble '~' (str "<del>") (str "</del>")) f t = t :=
    fun f => scanG_id _ f t (fun u hu => tryDouble_none _ _ (fun hm => by
      obtain ⟨a, ha⟩ := hu
      exact htl (mem_of_suffix ha hm)))
  show scanG (tryDouble '~' (str "<del>") (str "</del>")) ((scanG (trySingle '_' (str "<em>") (str "</em>")) ((scanG (trySingle '*' (str "<em>") (str "</em>")) ((scanG (tryDouble '_' (str "<strong>") (str "</strong>")) ((scanG (tryDouble '*' (str "<strong>") (str "</strong>")) (t.length + 1) t).length + 1)
      (scanG (tryDouble '*' (str "<strong>") (str "</strong>")) (t.length + 1) t)).length + 1)
      (scanG (tryDouble '_' (str "<strong>") (str "</strong>")) ((scanG (tryDouble '*' (str "<strong>") (str "</strong>")) (t.length + 1) t).length + 1)
      (scanG (tryDouble '*' (str "<strong>") (str "</strong>")) (t.length + 1) t))).length + 1)
      (scanG (trySingle '*' (str "<em>") (str "</em>")) ((scanG (tryDouble '_' (str "<strong>") (str "</strong>")) ((scanG (tryDouble '*' (str "<strong>") (str "</strong>")) (t.length + 1) t).length + 1)
      (scanG (tryDouble '*' (str "<strong>") (str "</strong>")) (t.length + 1) t)).length + 1)
      (scanG (tryDouble '_' (str "<strong>") (str "</strong>")) ((scanG (tryDouble '*' (str "<strong>") (str "</strong>")) (t.length + 1) t).length + 1)
      (scanG (tryDouble '*' (str "<strong>") (str "</strong>")) (t.length + 1) t)))).length + 1)
      (scanG (trySingle '_' (str "<em>") (str "</em>")) ((scanG (trySingle '*' (str "<em>") (str "</em>")) ((scanG (tryDouble '_' (str "<strong>") (str "</strong>")) ((scanG (tryDouble '*' (str "<strong>") (str "</strong>")) (t.length + 1) t).length + 1)
      (scanG (tryDouble '*' (str "<strong>") (str "</strong>")) (t.length + 1) t)).length + 1)
      (scanG (tryDouble '_' (str "<strong>") (str "</strong>")) ((scanG (tryDouble '*' (str "<strong>") (str "</strong>")) (t.length + 1) t).length + 1)
      (scanG (tryDouble '*' (str "<strong>") (str "</strong>")) (t.length + 1) t))).length + 1)
      (scanG (trySingle '*' (str "<em>") (str "</em>")) ((scanG (tryDouble '_' (str "<strong>") (str "</strong>")) ((scanG (tryDouble '*' (str "<strong>") (str "</strong>")) (t.length + 1) t).length + 1)
      (scanG (tryDouble '*' (str "<strong>") (str "</strong>")) (t.length + 1) t)).length + 1)
      (scanG (tryDouble '_' (str "<strong>") (str "</strong>")) ((scanG (tryDouble '*' (str "<strong>") (str "</strong>")) (t.length + 1) t).length + 1)
      (scanG (tryDouble '*' (str "<strong>") (str "</strong>")) (t.length + 1) t)))) = t
  rw [h1, h2, h3, h4, h5]

theorem parseLineBreaks_id {t : Str} (hlb : hasSub (str "  \n") t = false)
    (h3 : hasSub (str "\n\n\n") t = false) : parseLineBreaks t = t := by
  have h1 : ∀ f, scanG tryLB f t = t := by
    intro f
    refine scanG_id tryLB f t ?_
    intro u hu
    refine tryLB_none ?_
    cases hp : isPre (str "  \n") u with
    | false => rfl
    | true =>
      have h4 := hasSub_of_isPre hp
      rw [hasSub_suffix_false hlb hu] at h4
      exact absurd h4 (by simp)
  show scanG tryNN ((scanG tryLB (t.length + 1) t).length + 1) (scanG tryLB (t.length + 1) t) = t
  rw [h1]
  exact scanNN_id _ _ h3

theorem isBlockElement_head {c : Char} {cs : Str} (h : isBlockElement (c :: cs) = true) :
    c = '<' := by
  unfold isBlockElement at h
  rw [List.any_eq_true] at h
  obtain ⟨tag, htag, hpre⟩ := h
  have hhead : ∀ tag2 ∈ blockTags, tag2.head? = some '<' := by decide
  have hh := hhead tag htag
  cases tag with
  | nil => simp at hh
  | cons a tl =>
    simp only [List.head?_cons, Option.some.injEq] at hh
    subst hh
    simp only [isPre, Bool.and_eq_true, beq_iff_eq] at hpre
    exact hpre.1.symm

theorem isBlockElement_false {c : Char} (cs : Str) (h : c ≠ '<') :
    isBlockElement (c :: cs) = false := by
  cases hb : isBlockElement (c :: cs) with
  | false => rfl
  | true => exact absurd (isBlockElement_head hb) h

theorem isBlockElement_p (x : Str) : isBlockElement (str "<p>" ++ x) = true := by
  unfold isBlockElement
  rw [List.any_eq_true]
  refine ⟨str "<p>", by decide, ?_⟩
  exact isPre_append_left x (isPre_refl _)

theorem parseParagraphs_eq {t : Str} (hlt : '<' ∉ t) :
    parseParagraphs t = join2Nl (mkItems t) := by
  unfold parseParagraphs mkItems
  congr 1
  refine filterMap_congr_mem ?_
  intro b hb
  by_cases he : (trimWs b).isEmpty = true
  · simp only [he, if_true]
  · have hne : trimWs b ≠ [] := by
      cases ht2 : trimWs b with
      | nil => rw [ht2] at he; exact absurd rfl he
      | cons c cs => simp
    cases ht2 : trimWs b with
    | nil => exact absurd ht2 hne
    | cons c cs =>
      have hc : c ∈ b := mem_trimWs (ht2 ▸ List.mem_cons_self c cs)
      have hct : c ∈ t := split2Nl_mem hb c hc
      have hcne : c ≠ '<' := fun hcc => hlt (hcc ▸ hct)
      show (if (c :: cs : Str).isEmpty then none
          else if isBlockElement (c :: cs) then some (c :: cs)
          else some (str "<p>" ++ (c :: cs) ++ str "</p>")) =
        (if (c :: cs : Str).isEmpty then none else some (str "<p>" ++ (c :: cs ++ str "</p>")))
      rw [isBlockElement_false cs hcne]
      simp

/-- What the first parse guarantees about each emitted paragraph item:
it wraps a trimmed block of `s` (nonempty, whitespace-free at both ends, free
of blank lines, made of characters of `s`), and every interior line start of
the block, extended with the text `E` that follows it in `s`, matches neither
list-item pattern. -/
def ItemOK (s i : Str) : Prop :=
  ∃ t E, i = str "<p>" ++ (t ++ str "</p>") ∧
    (∃ c t2, t = c :: t2 ∧ isWsChar c = false) ∧
    (∃ t1 d, t = t1 ++ [d] ∧ isWsChar d = false) ∧
    hasSub (str "\n\n") t = false ∧
    (∃ a2 e2 : Str, s = a2 ++ (t ++ e2)) ∧
    (∀ v w2, t = v ++ '\n' :: w2 → tryUl (w2 ++ E) = none ∧ tryOl (w2 ++ E) = none)

theorem items_ok {s : Str} (hnm : noMarkers s = true) : ∀ i ∈ mkItems s, ItemOK s i := by
  obtain ⟨hch, hhttp, hlb, h3nl, hls⟩ := noMarkers_parts hnm
  intro i hi
  unfold mkItems at hi
  rw [List.mem_filterMap] at hi
  obtain ⟨b, hb, hfb⟩ := hi
  by_cases he : (trimWs b).isEmpty = true
  · rw [if_pos he] at hfb
    exact absurd hfb (by simp)
  · rw [if_neg he] at hfb
    injection hfb with hfb
    have hne : trimWs b ≠ [] := by
      cases ht2 : trimWs b with
      | nil => rw [ht2] at he; exact absurd rfl he
      | cons c cs => simp
    obtain ⟨⟨c, t2, hct, hcw⟩, ⟨t1, d, htd, hdw⟩⟩ := trimWs_shape hne
    obtain ⟨p, q, hpq⟩ := join2Nl_sub_of_mem hb
    rw [join2Nl_split2Nl] at hpq
    obtain ⟨wa, we, hbw, hwa, hwe⟩ := trimWs_sub b
    refine ⟨trimWs b, we ++ q, hfb.symm, ⟨c, t2, hct, hcw⟩, ⟨t1, d, htd, hdw⟩, ?_, ?_, ?_⟩
    · cases hs2 : hasSub (str "\n\n") (trimWs b) with
      | false => rfl
      | true =>
        have h4 := hasSub_trimWs hs2
        rw [split2Nl_no2nl b hb] at h4
        exact absurd h4 (by simp)
    · refine ⟨p ++ wa, we ++ q, ?_⟩
      conv_lhs => rw [hpq, hbw]
      simp
    · intro v w2 htv
      have hlsu : (p ++ (wa ++ v)) ++ '\n' :: (w2 ++ (we ++ q)) = s := by
        rw [hpq, hbw, htv]
        simp
      exact hls (w2 ++ (we ++ q)) (Or.inr ⟨p ++ (wa ++ v), hlsu⟩)

theorem pipeline_noMarkers {s : Str} (hnm : noMarkers s = true) :
    pipeline s = join2Nl (mkItems s) := by
  obtain ⟨hch, hhttp, hlb, h3nl, hls⟩ := noMarkers_parts hnm
  have hbt : '`' ∉ s := not_mem_of_banned hch (by decide)
  have hhash : '#' ∉ s := not_mem_of_banned hch (by decide)
  have hgt : '>' ∉ s := not_mem_of_banned hch (by decide)
  have hlt : '<' ∉ s := not_mem_of_banned hch (by decide)
  have hbr : '[' ∉ s := not_mem_of_banned hch (by decide)
  have hst : '*' ∉ s := not_mem_of_banned hch (by decide)
  have hun : '_' ∉ s := not_mem_of_banned hch (by decide)
  have htl : '~' ∉ s := not_mem_of_banned hch (by decide)
  have hlsub : hasSub (str "<l") s = false := by
    cases hsx : hasSub (str "<l") s with
    | false => rfl
    | true => exact absurd (hasSub_head_mem hsx) hlt
  unfold pipeline
  rw [parseCodeBlocks_id hbt, parseInlineCode_id hbt, parseHeaders_id hhash,
    parseBlockquotes_id hgt, parseLists_id hls hlsub, parseLinks_id hbr hhttp,
    parseImages_id hbr, parseEmphasis_id hst hun htl, parseLineBreaks_id hlb h3nl,
    parseParagraphs_eq hlt]

/-!
## C9 kit, part 7: structure of the first parse's output
-/

theorem item_head {s i : Str} (h : ItemOK s i) : ∃ r, i = '<' :: r := by
  obtain ⟨t, E, hi, _⟩ := h
  exact ⟨str "p>" ++ (t ++ str "</p>"), by rw [hi]; rfl⟩

theorem item_concat {s i : Str} (h : ItemOK s i) : ∃ m, i = m ++ ['>'] := by
  obtain ⟨t, E, hi, _⟩ := h
  refine ⟨str "<p>" ++ (t ++ str "</p"), ?_⟩
  rw [hi, show str "</p>" = str "</p" ++ ['>'] from rfl]
  simp

theorem itemSub_false {p t : Str}
    (h1 : hasSub p (str "<p>") = false)
    (h2 : hasSub p (str "</p>") = false)
    (h3 : ∀ k, 0 < k → k < p.length → isSuf (p.take k) (str "<p>") = false)
    (h4 : ∀ k, 0 < k → k < p.length → isPre (p.drop k) (str "</p>") = false)
    (h5 : hasSub p t = false) :
    hasSub p (str "<p>" ++ (t ++ str "</p>")) = false := by
  cases hx : hasSub p (str "<p>" ++ (t ++ str "</p>")) with
  | false => rfl
  | true =>
    exfalso
    rcases hasSub_append_split _ hx with h | h | ⟨k, hk1, hk2, hk3, _⟩
    · rw [h1] at h
      exact absurd h (by simp)
    · rcases hasSub_append_split _ h with h' | h' | ⟨k, hk1, hk2, _, hk4⟩
      · rw [h5] at h'
        exact absurd h' (by simp)
      · rw [h2] at h'
        exact absurd h' (by simp)
      · rw [h4 k hk1 hk2] at hk4
        exact absurd hk4 (by simp)
    · rw [h3 k hk1 hk2] at hk3
      exact absurd hk3 (by simp)

theorem item_sub_s {s i p : Str} (hok : ItemOK s i) (hs : hasSub p s = false)
    (h1 : hasSub p (str "<p>") = false)
    (h2 : hasSub p (str "</p>") = false)
    (h3 : ∀ k, 0 < k → k < p.length → isSuf (p.take k) (str "<p>") = false)
    (h4 : ∀ k, 0 < k → k < p.length → isPre (p.drop k) (str "</p>") = false) :
    hasSub p i = false := by
  obtain ⟨t, E, hi, _, _, _, ⟨a2, e2, hae⟩, _⟩ := hok
  have h5 : hasSub p t = false := by
    cases ht : hasSub p t with
    | false => rfl
    | true =>
      have h6 := hasSub_of_sub a2 e2 ht
      rw [List.append_assoc, ← hae] at h6
      rw [h6] at hs
      exact absurd hs (by simp)
  rw [hi]
  exact itemSub_false h1 h2 h3 h4 h5

theorem item_sep {s i : Str} (hok : ItemOK s i) :
    hasSub (str "\n\n") (i ++ ['\n']) = false := by
  have hii : hasSub (str "\n\n") i = false := by
    obtain ⟨t, E, hi, _, _, hnn, _, _⟩ := hok
    rw [hi]
    refine itemSub_false (by decide) (by decide) ?_ ?_ hnn
    · intro k hk1 hk2
      rw [show (str "\n\n").length = 2 from rfl] at hk2
      interval_cases k
      decide
    · intro k hk1 hk2
      rw [show (str "\n\n").length = 2 from rfl] at hk2
      interval_cases k
      decide
  cases hx : hasSub (str "\n\n") (i ++ ['\n']) with
  | false => rfl
  | true =>
    exfalso
    rcases hasSub_append_split _ hx with h | h | ⟨k, hk1, hk2, hk3, _⟩
    · rw [hii] at h
      exact absurd h (by simp)
    · exact absurd h (by simp [hasSub, isPre, str])
    · obtain ⟨m, hm⟩ := item_concat hok
      rw [hm] at hk3
      have hk2' : k = 1 := by
        rw [show (str "\n\n").length = 2 from rfl] at hk2
        omega
      subst hk2'
      rw [show (str "\n\n").take 1 = [] ++ ['\n'] from rfl] at hk3
      rw [isSuf_ne_last (by decide)] at hk3
      exact absurd hk3 (by simp)

theorem join_shape {s : Str} : ∀ {L : List Str}, (∀ i ∈ L, ItemOK s i) →
    join2Nl L = [] ∨ ∃ r, join2Nl L = '<' :: r := by
  intro L hL
  cases L with
  | nil => exact Or.inl rfl
  | cons i L' =>
    obtain ⟨r, hr⟩ := item_head (hL i (List.mem_cons_self i L'))
    cases L' with
    | nil => exact Or.inr ⟨r, hr⟩
    | cons i2 L2 =>
      refine Or.inr ⟨r ++ '\n' :: '\n' :: join2Nl (i2 :: L2), ?_⟩
      show i ++ '\n' :: '\n' :: join2Nl (i2 :: L2) = _
      rw [hr]
      rfl

theorem ySub_false {s p : Str}
    (h1 : hasSub p (str "<p>") = false)
    (h2 : hasSub p (str "</p>") = false)
    (h3 : ∀ k, 0 < k → k < p.length → isSuf (p.take k) (str "<p>") = false)
    (h4 : ∀ k, 0 < k → k < p.length → isPre (p.drop k) (str "</p>") = false)
    (h6 : ∀ k, 0 < k → k < p.length → ∀ m : Str, isSuf (p.take k) (m ++ ['>']) = false)
    (h7 : ∀ J2 : Str, (J2 = [] ∨ ∃ r, J2 = '<' :: r) →
      isPre p ('\n' :: '\n' :: J2) = false ∧ isPre p ('\n' :: J2) = false)
    (hs : hasSub p s = false) (hp : p ≠ []) :
    ∀ L, (∀ i ∈ L, ItemOK s i) → hasSub p (join2Nl L) = false := by
  intro L
  induction L with
  | nil =>
    intro _
    cases p with
    | nil => exact absurd rfl hp
    | cons c cs => rfl
  | cons i L' ih =>
    intro hL
    have hio := hL i (List.mem_cons_self i L')
    have hrest : ∀ j ∈ L', ItemOK s j := fun j hj => hL j (List.mem_cons_of_mem i hj)
    have hisub : hasSub p i = false := item_sub_s hio hs h1 h2 h3 h4
    cases L' with
    | nil => exact hisub
    | cons i2 L2 =>
      show hasSub p (i ++ '\n' :: '\n' :: join2Nl (i2 :: L2)) = false
      cases hx : hasSub p (i ++ '\n' :: '\n' :: join2Nl (i2 :: L2)) with
      | false => rfl
      | true =>
        exfalso
        have hJsh : join2Nl (i2 :: L2) = [] ∨ ∃ r, join2Nl (i2 :: L2) = '<' :: r :=
          join_shape hrest
        rcases hasSub_append_split _ hx with h | h | ⟨k, hk1, hk2, hk3, _⟩
        · rw [hisub] at h
          exact absurd h (by simp)
        · simp only [hasSub, Bool.or_eq_true] at h
          rcases h with h | h | h
          · rw [(h7 _ hJsh).1] at h
            exact absurd h (by simp)
          · rw [(h7 _ hJsh).2] at h
            exact absurd h (by simp)
          · rw [ih hrest] at h
            exact absurd h (by simp)
        · obtain ⟨m, hm⟩ := item_concat hio
          rw [hm, h6 k hk1 hk2 m] at hk3
          exact absurd hk3 (by simp)

theorem ySub_http {s : Str} (hs : hasSub (str "http") s = false) :
    ∀ L, (∀ i ∈ L, ItemOK s i) → hasSub (str "http") (join2Nl L) = false := by
  refine ySub_false (by decide) (by decide) ?_ ?_ ?_ ?_ hs (by decide)
  · intro k hk1 hk2
    rw [show (str "http").length = 4 from rfl] at hk2
    interval_cases k <;> decide
  · intro k hk1 hk2
    rw [show (str "http").length = 4 from rfl] at hk2
    interval_cases k <;> decide
  · intro k hk1 hk2 m
    rw [show (str "http").length = 4 from rfl] at hk2
    interval_cases k
    · rw [show (str "http").take 1 = [] ++ ['h'] from rfl]
      exact isSuf_ne_last (by decide)
    · rw [show (str "http").take 2 = ['h'] ++ ['t'] from rfl]
      exact isSuf_ne_last (by decide)
    · rw [show (str "http").take 3 = ['h', 't'] ++ ['t'] from rfl]
      exact isSuf_ne_last (by decide)
  · intro J2 _
    constructor
    · rw [show str "http" = 'h' :: str "ttp" from rfl]
      exact isPre_ne_head _ _ (by decide)
    · rw [show str "http" = 'h' :: str "ttp" from rfl]
      exact isPre_ne_head _ _ (by decide)

theorem ySub_lt {s : Str} (hs : hasSub (str "<l") s = false) :
    ∀ L, (∀ i ∈ L, ItemOK s i) → hasSub (str "<l") (join2Nl L) = false := by
  refine ySub_false (by decide) (by decide) ?_ ?_ ?_ ?_ hs (by decide)
  · intro k hk1 hk2
    rw [show (str "<l").length = 2 from rfl] at hk2
    interval_cases k <;> decide
  · intro k hk1 hk2
    rw [show (str "<l").length = 2 from rfl] at hk2
    interval_cases k <;> decide
  · intro k hk1 hk2 m
    rw [show (str "<l").length = 2 from rfl] at hk2
    interval_cases k
    rw [show (str "<l").take 1 = [] ++ ['<'] from rfl]
    exact isSuf_ne_last (by decide)
  · intro J2 _
    constructor
    · rw [show str "<l" = '<' :: str "l" from rfl]
      exact isPre_ne_head _ _ (by decide)
    · rw [show str "<l" = '<' :: str "l" from rfl]
      exact isPre_ne_head _ _ (by decide)

theorem ySub_break {s : Str} (hs : hasSub (str "  \n") s = false) :
    ∀ L, (∀ i ∈ L, ItemOK s i) → hasSub (str "  \n") (join2Nl L) = false := by
  refine ySub_false (by decide) (by decide) ?_ ?_ ?_ ?_ hs (by decide)
  · intro k hk1 hk2
    rw [show (str "  \n").length = 3 from rfl] at hk2
    interval_cases k <;> decide
  · intro k hk1 hk2
    rw [show (str "  \n").length = 3 from rfl] at hk2
    interval_cases k <;> decide
  · intro k hk1 hk2 m
    rw [show (str "  \n").length = 3 from rfl] at hk2
    interval_cases k
    · rw [show (str "  \n").take 1 = [] ++ [' '] from rfl]
      exact isSuf_ne_last (by decide)
    · rw [show (str "  \n").take 2 = [' '] ++ [' '] from rfl]
      exact isSuf_ne_last (by decide)
  · intro J2 _
    constructor
    · rw [show str "  \n" = ' ' :: str " \n" from rfl]
      exact isPre_ne_head _ _ (by decide)
    · rw [show str "  \n" = ' ' :: str " \n" from rfl]
      exact isPre_ne_head _ _ (by decide)

theorem ySub_3nl {s : Str} (hs : hasSub (str "\n\n\n") s = false) :
    ∀ L, (∀ i ∈ L, ItemOK s i) → hasSub (str "\n\n\n") (join2Nl L) = false := by
  refine ySub_false (by decide) (by decide) ?_ ?_ ?_ ?_ hs (by decide)
  · intro k hk1 hk2
    rw [show (str "\n\n\n").length = 3 from rfl] at hk2
    interval_cases k <;> decide
  · intro k hk1 hk2
    rw [show (str "\n\n\n").length = 3 from rfl] at hk2
    interval_cases k <;> decide
  · intro k hk1 hk2 m
    rw [show (str "\n\n\n").length = 3 from rfl] at hk2
    interval_cases k
    · rw [show (str "\n\n\n").take 1 = [] ++ ['\n'] from rfl]
      exact isSuf_ne_last (by decide)
    · rw [show (str "\n\n\n").take 2 = ['\n'] ++ ['\n'] from rfl]
      exact isSuf_ne_last (by decide)
  · intro J2 hJ
    rcases hJ with rfl | ⟨r, rfl⟩
    · constructor <;> decide
    · constructor
      · show isPre (str "\n\n\n") ('\n' :: '\n' :: '<' :: r) = false
        simp [isPre, str]
      · show isPre (str "\n\n\n") ('\n' :: '<' :: r) = false
        simp [isPre, str]

/-!
## C9 kit, part 8: no pattern matches at any line start of the output
-/

theorem four_none_head {c : Char} (r : Str) (h1 : isWsChar c = false) (h2 : c ≠ '-')
    (h3 : isDigitChar c = false) (h4 : c ≠ '#') (h5 : c ≠ '>') :
    tryUl (c :: r) = none ∧ tryOl (c :: r) = none ∧
    tryHdr (c :: r) = none ∧ tryQuote (c :: r) = none := by
  have hdrop : (c :: r).dropWhile isWsChar = c :: r := by
    simp [List.dropWhile, h1]
  exact ⟨tryUl_not_dash hdrop h2, tryOl_nodigit hdrop h3,
    tryHdr_none_head r h4, tryQuote_none_head r h5⟩

theorem four_none_nil : tryUl ([] : Str) = none ∧ tryOl ([] : Str) = none ∧
    tryHdr ([] : Str) = none ∧ tryQuote ([] : Str) = none :=
  ⟨tryUl_none_nil rfl, tryOl_none_nil rfl, tryHdr_nil, tryQuote_nil⟩

theorem four_none_nlJ {s : Str} {L2 : List Str} (hL2 : ∀ i ∈ L2, ItemOK s i) :
    tryUl ('\n' :: join2Nl L2) = none ∧ tryOl ('\n' :: join2Nl L2) = none ∧
    tryHdr ('\n' :: join2Nl L2) = none ∧ tryQuote ('\n' :: join2Nl L2) = none := by
  have hdropnl : ('\n' :: join2Nl L2).dropWhile isWsChar = (join2Nl L2).dropWhile isWsChar := by
    simp [List.dropWhile, show isWsChar '\n' = true from by decide]
  have hUO : tryUl ('\n' :: join2Nl L2) = none ∧ tryOl ('\n' :: join2Nl L2) = none := by
    rcases join_shape hL2 with hemp | ⟨r, hr⟩
    · have h0 : ('\n' :: join2Nl L2).dropWhile isWsChar = [] := by
        rw [hdropnl, hemp]
        rfl
      exact ⟨tryUl_none_nil h0, tryOl_none_nil h0⟩
    · have hdrop2 : ('<' :: r).dropWhile isWsChar = '<' :: r := by
        simp [List.dropWhile, show isWsChar '<' = false from by decide]
      have h0 : ('\n' :: join2Nl L2).dropWhile isWsChar = '<' :: r := by
        rw [hdropnl, hr]
        exact hdrop2
      exact ⟨tryUl_not_dash h0 (by decide), tryOl_nodigit h0 (by decide)⟩
  exact ⟨hUO.1, hUO.2, tryHdr_none_head _ (by decide), tryQuote_none_head _ (by decide)⟩

theorem yLS_none {s : Str} (hch : ∀ c ∈ s, bannedChar c = false) :
    ∀ (L : List Str), (∀ i ∈ L, ItemOK s i) →
    ∀ u, (u = join2Nl L ∨ ∃ a : Str, a ++ '\n' :: u = join2Nl L) →
    tryUl u = none ∧ tryOl u = none ∧ tryHdr u = none ∧ tryQuote u = none := by
  intro L
  induction L with
  | nil =>
    intro _ u hu
    rcases hu with rfl | ⟨a, ha⟩
    · exact four_none_nil
    · exact absurd ha (by simp [join2Nl])
  | cons i L' ih =>
    intro hL u hu
    have hio := hL i (List.mem_cons_self i L')
    have hrest : ∀ j ∈ L', ItemOK s j := fun j hj => hL j (List.mem_cons_of_mem i hj)
    rcases hu with rfl | ⟨a, ha⟩
    · rcases join_shape hL with hemp | ⟨r, hr⟩
      · rw [hemp]
        exact four_none_nil
      · rw [hr]
        exact four_none_head r (by decide) (by decide) (by decide) (by decide) (by decide)
    · -- a line start strictly inside the output
      obtain ⟨t, E, hi, ⟨c0, t2, hct, hc0w⟩, ⟨t1, d, htd, hdw⟩, hnn, hinf, hlsE⟩ := hio
      -- the output is i ++ rest2
      have hjoin : ∃ rest2 : Str,
          join2Nl (i :: L') = i ++ rest2 ∧
          (rest2 = [] ∨ (L' ≠ [] ∧ rest2 = '\n' :: '\n' :: join2Nl L')) := by
        cases L' with
        | nil => exact ⟨[], by simp [join2Nl], Or.inl rfl⟩
        | cons i2 L2 =>
          refine ⟨'\n' :: '\n' :: join2Nl (i2 :: L2), rfl, Or.inr ⟨?_, rfl⟩⟩
          simp
      obtain ⟨rest2, hj, hr2⟩ := hjoin
      rw [hj] at ha
      rcases nl_split ha with ⟨w, hPw, hu2⟩ | ⟨a2, ha2, ha3⟩
      · -- the '\n' lies inside the item
        rw [hi] at hPw
        rcases nl_split hPw.symm with ⟨w2, hp2, hw2⟩ | ⟨a3, ha4, ha5⟩
        · -- impossible: no newline in "<p>"
          have : '\n' ∈ str "<p>" := by
            rw [hp2]
            simp
          exact absurd this (by decide)
        · rcases nl_split ha5 with ⟨w3, ht3, hw3⟩ | ⟨a4, ha6, ha7⟩
          · -- the '\n' lies inside t : u = w3 ++ "</p>" ++ rest2
            have hw3ne : w3 ≠ [] := by
              intro hnil
              rw [hnil] at ht3
              have hde : d = '\n' := concat_last_eq (by rw [← htd, ht3])
              rw [hde] at hdw
              exact absurd hdw (by decide)
            obtain ⟨w4, hw4⟩ := tail_last
              (show (a3 ++ ['\n']) ++ w3 = t1 ++ [d] by rw [← htd, ht3]; simp) hw3ne
            have hEfacts := hlsE a3 w3 ht3
            have hul : tryUl (w3 ++ (str "</p>" ++ rest2)) = none :=
              tryUl_line hw4 hdw hEfacts.1 rest2
            have hol : tryOl (w3 ++ (str "</p>" ++ rest2)) = none :=
              tryOl_line hw4 hdw hEfacts.2 rest2
            have hueq : u = w3 ++ (str "</p>" ++ rest2) := by
              rw [hu2, hw3]
              simp
            -- head of w3 is a character of s
            cases w3 with
            | nil => exact absurd rfl hw3ne
            | cons q0 q0s =>
              have hq0t : q0 ∈ t := by
                rw [ht3]
                simp
              obtain ⟨a5, e5, hse⟩ := hinf
              have hq0s : q0 ∈ s := by
                rw [hse]
                simp [hq0t]
              have hq0b := hch q0 hq0s
              have hq0hash : q0 ≠ '#' := by
                intro hq
                rw [hq] at hq0b
                exact absurd hq0b (by decide)
              have hq0gt : q0 ≠ '>' := by
                intro hq
                rw [hq] at hq0b
                exact absurd hq0b (by decide)
              rw [hueq]
              refine ⟨hul, hol, ?_, ?_⟩
              · rw [List.cons_append]
                exact tryHdr_none_head _ hq0hash
              · rw [List.cons_append]
                exact tryQuote_none_head _ hq0gt
          · -- impossible: no newline in "</p>"
            have : '\n' ∈ str "</p>" := by
              rw [← ha7]
              simp
            exact absurd this (by decide)
      · -- the '\n' lies in the separator or beyond
        rcases hr2 with rfl | ⟨hne, rfl⟩
        · exact absurd ha3 (by simp)
        · cases a2 with
          | nil =>
            -- u = '\n' :: join2Nl L'
            have hu3 : u = '\n' :: join2Nl L' := by
              simpa using ha3
            rw [hu3]
            exact four_none_nlJ hrest
          | cons x a3 =>
            rw [List.cons_append] at ha3
            injection ha3 with hx ha4
            cases a3 with
            | nil =>
              have hu3 : u = join2Nl L' := by
                simpa using ha4
              exact hu3 ▸ ih hrest (join2Nl L') (Or.inl rfl)
            | cons x2 a4 =>
              rw [List.cons_append] at ha4
              injection ha4 with hx2 ha5
              exact ih hrest u (Or.inr ⟨a4, ha5⟩)

/-!
## C9 kit, part 9: phase B — every pass leaves the output fixed
-/

theorem yMem {s : Str} : ∀ {L : List Str}, (∀ i ∈ L, ItemOK s i) →
    ∀ c ∈ join2Nl L, c ∈ s ∨ c ∈ str "<p>/\n" := by
  intro L
  induction L with
  | nil => intro _ c hc; simp [join2Nl] at hc
  | cons i L' ih =>
    intro hL c hc
    have hio := hL i (List.mem_cons_self i L')
    have hrest : ∀ j ∈ L', ItemOK s j := fun j hj => hL j (List.mem_cons_of_mem i hj)
    have hci : c ∈ i → (c ∈ s ∨ c ∈ str "<p>/\n") := by
      intro hcc
      obtain ⟨t, E, hi, _, _, _, ⟨a2, e2, hse⟩, _⟩ := hio
      rw [hi] at hcc
      rcases List.mem_append.mp hcc with h | h
      · right
        simp only [str] at h ⊢
        simp at h
        rcases h with rfl | rfl | rfl <;> simp
      · rcases List.mem_append.mp h with h' | h'
        · left
          rw [hse]
          simp [h']
        · right
          simp only [str] at h' ⊢
          simp at h'
          rcases h' with rfl | rfl | rfl | rfl <;> simp
    cases L' with
    | nil => exact hci hc
    | cons i2 L2 =>
      have hc2 : c ∈ i ++ '\n' :: '\n' :: join2Nl (i2 :: L2) := hc
      rcases List.mem_append.mp hc2 with h | h
      · exact hci h
      · rcases List.mem_cons.mp h with rfl | h'
        · right
          simp [str]
        · rcases List.mem_cons.mp h' with rfl | h'' 
          · right
            simp [str]
          · exact ih hrest c h''

theorem yNotMem {s : Str} {x : Char} (hx : x ∉ s) (hx2 : x ∉ str "<p>/\n")
    {L : List Str} (hL : ∀ i ∈ L, ItemOK s i) : x ∉ join2Nl L := by
  intro hmem
  rcases yMem hL x hmem with h | h
  · exact hx h
  · exact hx2 h

theorem trimWs_eq_self_ends {u r m : Str} {c d2 : Char} (h1 : u = c :: r)
    (hc : isWsChar c = false) (h2 : u = m ++ [d2]) (hd : isWsChar d2 = false) :
    trimWs u = u := by
  unfold trimWs
  have ha : u.dropWhile isWsChar = u := by
    rw [h1]
    simp [List.dropWhile, hc]
  rw [ha]
  have hb : u.reverse.dropWhile isWsChar = u.reverse := by
    rw [h2, List.reverse_append]
    simp only [List.reverse_cons, List.reverse_nil, List.nil_append, List.singleton_append]
    simp [List.dropWhile, hd]
  rw [hb, List.reverse_reverse]

theorem join_end {s : Str} : ∀ {L : List Str}, L ≠ [] → (∀ i ∈ L, ItemOK s i) →
    ∃ m, join2Nl L = m ++ ['>'] := by
  intro L
  induction L with
  | nil => intro h _; exact absurd rfl h
  | cons i L' ih =>
    intro _ hL
    have hio := hL i (List.mem_cons_self i L')
    cases L' with
    | nil => exact item_concat hio
    | cons i2 L2 =>
      obtain ⟨m, hm⟩ := ih (by simp) (fun j hj => hL j (List.mem_cons_of_mem i hj))
      refine ⟨i ++ '\n' :: '\n' :: m, ?_⟩
      show i ++ '\n' :: '\n' :: join2Nl (i2 :: L2) = _
      rw [hm]
      simp

theorem trimWs_join {s : Str} {L : List Str} (hL : ∀ i ∈ L, ItemOK s i) :
    trimWs (join2Nl L) = join2Nl L := by
  cases L with
  | nil => rfl
  | cons i L' =>
    rcases join_shape hL with hemp | ⟨r, hr⟩
    · rw [hemp]
      rfl
    · obtain ⟨m, hm⟩ := join_end (s := s) (by simp) hL
      exact trimWs_eq_self_ends hr (by decide) hm (by decide)

theorem parseParagraphs_items {s : Str} : ∀ {L : List Str}, (∀ i ∈ L, ItemOK s i) →
    parseParagraphs (join2Nl L) = join2Nl L := by
  intro L hL
  cases L with
  | nil => rfl
  | cons i L' =>
    have hsep : ∀ j ∈ i :: L', hasSub (str "\n\n") (j ++ ['\n']) = false :=
      fun j hj => item_sep (hL j hj)
    have hfm : ∀ j ∈ i :: L',
        (if (trimWs j).isEmpty then none
         else if isBlockElement (trimWs j) then some (trimWs j)
         else some (str "<p>" ++ trimWs j ++ str "</p>")) = some j := by
      intro j hj
      have hok := hL j hj
      obtain ⟨r, hr⟩ := item_head hok
      obtain ⟨m, hm⟩ := item_concat hok
      have htr : trimWs j = j := trimWs_eq_self_ends hr (by decide) hm (by decide)
      rw [htr]
      obtain ⟨t, E, hi, _⟩ := hok
      have hbe : isBlockElement j = true := by
        rw [hi]
        exact isBlockElement_p _
      have hje : j.isEmpty = false := by
        rw [hr]
        rfl
      rw [hje, hbe]
      rfl
    unfold parseParagraphs
    rw [split2Nl_join2Nl (by simp) hsep, filterMap_id_of_some hfm]

theorem pipeline_items {s : Str} (hnm : noMarkers s = true) {L : List Str}
    (hL : ∀ i ∈ L, ItemOK s i) : pipeline (join2Nl L) = join2Nl L := by
  obtain ⟨hch, hhttp, hlb3, h3nl, _⟩ := noMarkers_parts hnm
  have hlsub : hasSub (str "<l") s = false := by
    cases hsx : hasSub (str "<l") s with
    | false => rfl
    | true => exact absurd (hasSub_head_mem hsx) (not_mem_of_banned hch (by decide))
  have hbt : '`' ∉ join2Nl L := yNotMem (not_mem_of_banned hch (by decide)) (by decide) hL
  have hhash : '#' ∉ join2Nl L := yNotMem (not_mem_of_banned hch (by decide)) (by decide) hL
  have hbr : '[' ∉ join2Nl L := yNotMem (not_mem_of_banned hch (by decide)) (by decide) hL
  have hst : '*' ∉ join2Nl L := yNotMem (not_mem_of_banned hch (by decide)) (by decide) hL
  have hun : '_' ∉ join2Nl L := yNotMem (not_mem_of_banned hch (by decide)) (by decide) hL
  have htl : '~' ∉ join2Nl L := yNotMem (not_mem_of_banned hch (by decide)) (by decide) hL
  have hhy : hasSub (str "http") (join2Nl L) = false := ySub_http hhttp L hL
  have hlty : hasSub (str "<l") (join2Nl L) = false := ySub_lt hlsub L hL
  have hlby : hasSub (str "  \n") (join2Nl L) = false := ySub_break hlb3 L hL
  have h3y : hasSub (str "\n\n\n") (join2Nl L) = false := ySub_3nl h3nl L hL
  have h4 := yLS_none hch L hL
  have hbq : parseBlockquotes (join2Nl L) = join2Nl L :=
    scanLinesG_id tryQuote ((join2Nl L).length + 1) (join2Nl L)
      (fun u hu => (h4 u hu).2.2.2)
  unfold pipeline
  rw [parseCodeBlocks_id hbt, parseInlineCode_id hbt, parseHeaders_id hhash, hbq,
    parseLists_id (fun u hu => ⟨(h4 u hu).1, (h4 u hu).2.1⟩) hlty,
    parseLinks_id hbr hhy, parseImages_id hbr, parseEmphasis_id hst hun htl,
    parseLineBreaks_id hlby h3y, parseParagraphs_items hL]

/-- C9.  Round-trip idempotence on marker-free input: for every input string
with no markdown syntax (no code, heading, quote, raw-HTML, link, image or
emphasis marker characters, no `http` URL run, no two-space hard break, no
run of three newlines, and no line matching either list-item pattern),
applying `parseMarkdown` to its own output equals applying it once: the
first parse wraps the blank-line-separated blocks in `<p>…</p>`, and on that
output every pass — the paragraph pass included, which passes the
already-block-level `<p>` blocks through unchanged — is the identity. -/
theorem c9_idempotent (s : Str) (h : noMarkers s = true) :
    parseMarkdown (JsValue.strJ (parseMarkdown (JsValue.strJ s))) =
      parseMarkdown (JsValue.strJ s) := by
  by_cases hs0 : s.isEmpty = true
  · simp [parseMarkdown, hs0]
  · have hL := items_ok h
    have hmd1 : parseMarkdown (JsValue.strJ s) = trimWs (pipeline s) := by
      simp [parseMarkdown, hs0]
    rw [hmd1, pipeline_noMarkers h, trimWs_join hL]
    cases hL0 : mkItems s with
    | nil =>
      simp [parseMarkdown, join2Nl]
    | cons i L' =>
      have hL' : ∀ j ∈ i :: L', ItemOK s j := by
        rw [← hL0]
        exact hL
      rcases join_shape hL' with hemp | ⟨r, hr⟩
      · rw [hemp]
        simp [parseMarkdown]
      · have hne : (join2Nl (i :: L')).isEmpty = false := by
          rw [hr]
          rfl
        have hmd2 : parseMarkdown (JsValue.strJ (join2Nl (i :: L'))) =
            trimWs (pipeline (join2Nl (i :: L'))) := by
          simp [parseMarkdown, hne]
        rw [hmd2, pipeline_items h hL', trimWs_join hL']

theorem c9_idempotent_witness :
    noMarkers (str "Hi there.\nSecond line.\n\nBye now!") = true ∧
    parseMarkdown (JsValue.strJ (parseMarkdown (JsValue.strJ
      (str "Hi there.\nSecond line.\n\nBye now!")))) =
      parseMarkdown (JsValue.strJ (str "Hi there.\nSecond line.\n\nBye now!")) :=
  ⟨by decide, c9_idempotent _ (by decide)⟩
